import Mathlib

/-!
Link header parsing and formatting (`link.go`)

A shallow embedding of the Go package `link`: `NewHeader`, `ParseString`, `Header.Find`
and its wrappers, `Header.String` and `Link.String`.

Modelling conventions.

* A Go `string` is modelled as the list of its code points (`Str`).  Byte-wise
  comparison of valid UTF-8 coincides with code point comparison, so `sort.Strings`
  is modelled by the lexicographic order on code points.
* The functions of package `strings` are embedded at the shapes in which `link.go`
  calls them: the separators of `Split`, `SplitN`, `Count` and the pattern of
  `ReplaceAll` are single characters there.
* `net/url` is an external library.  It is a parameter of the development
  (`URLLib`): a type of URLs, the parser `url.Parse` and the formatter
  `(*url.URL).String`.
* A Go `map[string]string` is a finite map; it is modelled by an association list
  with pairwise distinct keys.  The order of the list stands for the (unspecified)
  iteration order of the map.
* An index out of range is a run-time panic; `ParseString` therefore has three
  outcomes: a header, an error, or a panic.
-/

set_option maxRecDepth 20000

namespace LinkHeader

/-- A Go string, as the list of its code points. -/
abbrev Str := List Char

/-! ## Package `strings` -/

/-- The call `strings.ReplaceAll(s, old, new)` for a one-character `old`. -/
def ReplaceAll : Str → Char → Str → Str
  | [], _, _ => []
  | c :: cs, old, new =>
    if c = old then new ++ ReplaceAll cs old new else c :: ReplaceAll cs old new

/-- The call `strings.Count(s, sep)` for a one-character `sep`. -/
def Count : Str → Char → Nat
  | [], _ => 0
  | c :: cs, sep => if c = sep then Count cs sep + 1 else Count cs sep

/-- The call `strings.Split(s, sep)` for a one-character `sep`: the pieces of `s`
between the occurrences of `sep`; the result is never empty. -/
def Split : Str → Char → List Str
  | [], _ => [[]]
  | c :: cs, sep =>
    if c = sep then [] :: Split cs sep
    else
      match Split cs sep with
      | [] => [[c]]
      | p :: ps => (c :: p) :: ps

/-- The call `strings.SplitN(s, sep, n)` for a one-character `sep` and `n ≥ 0`: at most
`n` pieces, the last one being the unsplit remainder; `n = 0` gives no piece. -/
def SplitN : Str → Char → Nat → List Str
  | _, _, 0 => []
  | s, _, 1 => [s]
  | [], _, _ + 2 => [[]]
  | c :: cs, sep, n + 2 =>
    if c = sep then [] :: SplitN cs sep (n + 1)
    else
      match SplitN cs sep (n + 2) with
      | [] => [[c]]
      | p :: ps => (c :: p) :: ps

/-- Drop the leading characters that satisfy `p` (`strings.TrimLeftFunc`). -/
def TrimLeftFunc (s : Str) (p : Char → Bool) : Str :=
  s.dropWhile p

/-- Drop the trailing characters that satisfy `p` (`strings.TrimRightFunc`). -/
def TrimRightFunc (s : Str) (p : Char → Bool) : Str :=
  (s.reverse.dropWhile p).reverse

/-- The function `strings.Trim(s, cutset)`: `s` without the leading and trailing code
points contained in `cutset`. -/
def Trim (s cutset : Str) : Str :=
  TrimRightFunc (TrimLeftFunc s (fun c => cutset.contains c)) (fun c => cutset.contains c)

/-- The function `unicode.IsSpace`: the Latin-1 white space characters
`\t \n \v \f \r`, space, U+0085, U+00A0, and the other code points of the Unicode
property White_Space. -/
def IsSpace (c : Char) : Bool :=
  let r := c.toNat
  if r ≤ 0xFF then
    r = 0x09 || r = 0x0A || r = 0x0B || r = 0x0C || r = 0x0D || r = 0x20 || r = 0x85 || r = 0xA0
  else
    r = 0x1680 || (0x2000 ≤ r && r ≤ 0x200A) || r = 0x2028 || r = 0x2029 || r = 0x202F ||
      r = 0x205F || r = 0x3000

/-- The function `strings.TrimSpace(s)`: `s` without leading and trailing white space. -/
def TrimSpace (s : Str) : Str :=
  TrimRightFunc (TrimLeftFunc s IsSpace) IsSpace

/-- The function `strings.Join(elems, sep)`. -/
def Join : List Str → Str → Str
  | [], _ => []
  | [x], _ => x
  | x :: y :: rest, sep => x ++ sep ++ Join (y :: rest) sep

/-- The function `slices.Contains(s, v)`. -/
def Contains : List Str → Str → Bool
  | [], _ => false
  | x :: xs, v => if x = v then true else Contains xs v

/-! ## Package `sort` -/

/-- The comparison `a <= b` of Go strings (lexicographic). -/
def strLe : Str → Str → Bool
  | [], _ => true
  | _ :: _, [] => false
  | a :: as, b :: bs =>
    if a.toNat < b.toNat then true
    else if b.toNat < a.toNat then false
    else strLe as bs

/-- Insert `k` into an ascending list. -/
def insertSorted (k : Str) : List Str → List Str
  | [] => [k]
  | x :: xs => if strLe k x then k :: x :: xs else x :: insertSorted k xs

/-- The call `sort.Strings(keys)`: the elements of `keys` in ascending order. -/
def sortStrings : List Str → List Str
  | [] => []
  | k :: ks => insertSorted k (sortStrings ks)

/-! ## Maps `map[string]string` -/

/-- A value of type `map[string]string`: an association list with distinct keys. -/
structure Params where
  entries : List (Str × Str)
  nodup : (entries.map Prod.fst).Nodup

namespace Params

/-- The literal `map[string]string{}`. -/
def empty : Params := ⟨[], List.nodup_nil⟩

/-- The keys of the map, in iteration order (`for key := range m`). -/
def keys (m : Params) : List Str := m.entries.map Prod.fst

/-- The value stored under `k`, if any (`v, ok := m[k]`). -/
def lookup (m : Params) (k : Str) : Option Str :=
  match m.entries.find? (fun e => e.1 = k) with
  | some e => some e.2
  | none => none

/-- The expression `m[k]`: the value stored under `k`, the empty string when there is
none. -/
def get (m : Params) (k : Str) : Str :=
  match m.lookup k with
  | some v => v
  | none => []

/-- The assignment `m[k] = v`: any entry under `k` is replaced. -/
def set (m : Params) (k v : Str) : Params :=
  ⟨(k, v) :: m.entries.filter (fun e => e.1 ≠ k), by
    simp only [List.map_cons, List.nodup_cons, List.mem_map, List.mem_filter, not_exists, not_and]
    refine ⟨?_, ?_⟩
    · rintro ⟨a, b⟩ ⟨_, hne⟩ heq
      simp at hne heq
      exact hne heq
    · exact ((List.filter_sublist m.entries).map Prod.fst).nodup m.nodup⟩

instance : DecidableEq Params := fun a b =>
  decidable_of_iff (a.entries = b.entries) (by cases a; cases b; simp)

end Params

/-! ## Package `net/url` (parameter) -/

/-- The part of package `net/url` that `link.go` uses. -/
structure URLLib where
  /-- The type `url.URL`. -/
  URL : Type
  /-- The errors of `url.Parse`. -/
  Err : Type
  /-- The function `url.Parse`. -/
  Parse : Str → Except Err URL
  /-- The method `(*url.URL).String`. -/
  String : URL → Str

/-! ## Package `link` -/

/-- Link contains a single link with its associated data. -/
structure Link (U : URLLib) where
  URL : U.URL
  Params : Params

/-- Header contains all of the links in the header. -/
structure Header (U : URLLib) where
  Links : List (Link U)

/-- The result of a call that may return a value, return an error, or panic. -/
inductive Outcome (ε α : Type) where
  | ok (a : α)
  | error (e : ε)
  | panic

/-- The loop of `NewHeader` over the entries of the map `links`, in iteration order:
an entry with a nil URL is skipped, any other appends a link with the single parameter
`rel`. -/
def newHeaderLoop {U : URLLib} : List (Str × Option U.URL) → List (Link U) → List (Link U)
  | [], acc => acc
  | (_, none) :: rest, acc => newHeaderLoop rest acc
  | (rel, some link) :: rest, acc =>
    newHeaderLoop rest (acc ++ [⟨link, Params.empty.set "rel".toList rel⟩])

/-- NewHeader will format a new link header with a map of rel = link.  The map
`map[string]*url.URL` is given by its entries in iteration order, a nil URL being
`none`. -/
def NewHeader {U : URLLib} (links : List (Str × Option U.URL)) : Header U :=
  ⟨newHeaderLoop links []⟩

/-- The inner loop of `ParseString`: for each `param` of `parts[1:]`,
`kv := SplitN(TrimSpace(param), "=", 2)` and
`params[Trim(kv[0], "\"")] = Trim(kv[1], "\"")`.  The result is `none` when an index
is out of range. -/
def parseParams : List Str → Params → Option Params
  | [], params => some params
  | param :: rest, params =>
    let kv := SplitN (TrimSpace param) '=' 2
    match kv[0]?, kv[1]? with
    | some k, some v => parseParams rest (params.set (Trim k ['"']) (Trim v ['"']))
    | _, _ => none

/-- The outer loop of `ParseString` over the segments `strings.Split(header, ",")`,
`links` being `linkHeader.Links` so far. -/
def parseSegments (U : URLLib) : List Str → List (Link U) → Outcome U.Err (Header U)
  | [], links => .ok ⟨links⟩
  | part :: rest, links =>
    let parts := Split part ';'
    match parts[0]? with
    | none => .panic
    | some p0 =>
      match U.Parse (Trim p0 [' ', '<', '>']) with
      | .error err => .error err
      | .ok u =>
        match parseParams (parts.drop 1) Params.empty with
        | none => .panic
        | some params => parseSegments U rest (links ++ [⟨u, params⟩])

/-- ParseString will parse a string from the link header. -/
def ParseString (U : URLLib) (header : Str) : Outcome U.Err (Header U) :=
  let header := ReplaceAll header '\n' []
  parseSegments U (Split header ',') []

/-- The parameter name "rel". -/
def relKey : Str := "rel".toList

/-- The loop of `Header.Find` over `header.Links`. -/
def findLoop {U : URLLib} (rel : List Str) : List (Link U) → Option (Link U)
  | [] => none
  | link :: rest =>
    if link.Params.get relKey ≠ [] && Contains rel (link.Params.get relKey) then
      some link
    else findLoop rel rest

/-- Find will search for a link with the rel matching one of the values passed.
If it does not exist then nil (`none`) will be returned. -/
def Header.Find {U : URLLib} (header : Header U) (rel : List Str) : Option (Link U) :=
  findLoop rel header.Links

/-- First will find the link with rel="first". -/
def Header.First {U : URLLib} (header : Header U) : Option (Link U) :=
  header.Find ["first".toList]

/-- Last will find the link with rel="last". -/
def Header.Last {U : URLLib} (header : Header U) : Option (Link U) :=
  header.Find ["last".toList]

/-- Next will find the link with rel="next". -/
def Header.Next {U : URLLib} (header : Header U) : Option (Link U) :=
  header.Find ["next".toList]

/-- Prev will find the link with rel="prev" or rel="previous". -/
def Header.Prev {U : URLLib} (header : Header U) : Option (Link U) :=
  header.Find ["prev".toList, "previous".toList]

/-- The second loop of `Link.String`: for each `key` of the sorted keys,
`parts = append(parts, key + "=\"" + link.Params[key] + "\"")`. -/
def appendParams (params : Params) : List Str → List Str → List Str
  | [], parts => parts
  | key :: rest, parts =>
    appendParams params rest (parts ++ [key ++ "=\"".toList ++ params.get key ++ "\"".toList])

/-- The method `Link.String`. -/
def Link.String {U : URLLib} (link : Link U) : Str :=
  let parts := ["<".toList ++ U.String link.URL ++ ">".toList]
  let keys := sortStrings link.Params.keys
  Join (appendParams link.Params keys parts) "; ".toList

/-- The loop of `Header.String`: `links[i] = link.String()` for each link, from
index `i` on. -/
def fillStrings {U : URLLib} : List (Link U) → Nat → List Str → List Str
  | [], _, links => links
  | link :: rest, i, links => fillStrings rest (i + 1) (links.set i link.String)

/-- The method `Header.String`. -/
def Header.String {U : URLLib} (header : Header U) : Str :=
  let links := List.replicate header.Links.length ([] : Str)
  Join (fillStrings header.Links 0 links) ", ".toList

/-! ## Vocabulary of the specification -/

/-- The link has a non-empty "rel" parameter equal to one of the names `rs`. -/
def Link.hasRelIn {U : URLLib} (l : Link U) (rs : List Str) : Prop :=
  ∃ r, l.Params.lookup relKey = some r ∧ r ≠ [] ∧ r ∈ rs

/-! ## A concrete URL library

Used to run the package on concrete inputs.  A URL is its scheme and the text after
the scheme; scheme detection follows `getScheme` of `net/url`, which rejects a
reference whose first character is a colon ("missing protocol scheme"). -/

/-- The scan of `getScheme`: `seen` holds the characters read so far, in reverse. -/
def getSchemeLoop : Str → Str → Except Str (Str × Str)
  | [], seen => .ok ([], seen.reverse)
  | c :: cs, seen =>
    if c.isAlpha then getSchemeLoop cs (c :: seen)
    else if c.isDigit || c = '+' || c = '-' || c = '.' then
      if seen = [] then .ok ([], c :: cs) else getSchemeLoop cs (c :: seen)
    else if c = ':' then
      if seen = [] then .error "missing protocol scheme".toList
      else .ok (seen.reverse, cs)
    else .ok ([], seen.reverse ++ c :: cs)

/-- The scheme-splitting URL library. -/
def schemeURL : URLLib where
  URL := Str × Str
  Err := Str
  Parse := fun s => getSchemeLoop s []
  String := fun u => if u.1 = [] then u.2 else u.1 ++ ":".toList ++ u.2

/-! ## Concrete headers -/

/-- A link over `schemeURL` with the single parameter `rel=name`. -/
def relLink (host name : Str) : Link schemeURL :=
  ⟨("http".toList, "//".toList ++ host), Params.empty.set relKey name⟩

/-- A header whose first link has rel "previous" and whose second has rel "prev". -/
def previousFirst : Header schemeURL :=
  ⟨[relLink "a.com".toList "previous".toList, relLink "b.com".toList "prev".toList]⟩

/-- A header with the relations "last", "next", "first", in this order. -/
def lastNextFirst : Header schemeURL :=
  ⟨[relLink "a.com".toList "last".toList, relLink "b.com".toList "next".toList,
    relLink "c.com".toList "first".toList]⟩

/-- The text `; key="value"` that `Link.String` emits for the key `k` of the map `m`. -/
def paramText (m : Params) (k : Str) : Str :=
  "; ".toList ++ k ++ "=\"".toList ++ m.get k ++ "\"".toList

/-- The link of `TestLink_String`, the parameter "rel" inserted first. -/
def redRelOther : Link schemeURL :=
  ⟨("http".toList, "//red.com".toList),
    (Params.empty.set relKey "first".toList).set "other".toList "foo".toList⟩

/-- The link of `TestLink_String`, the parameter "other" inserted first. -/
def redOtherRel : Link schemeURL :=
  ⟨("http".toList, "//red.com".toList),
    (Params.empty.set "other".toList "foo".toList).set relKey "first".toList⟩

/-! ## Concrete header values -/

/-- The constant `testHeader` of the tests: the canonical header value. -/
def testHeader : Str :=
  ("<http://red.com>; other=\"foo\"; rel=\"first\", <http://purple.com>; rel=\"last\", " ++
    "<http://green.com>; rel=\"next\", <http://yellow.com>; rel=\"prev\", " ++
    "<http://cyan.com>; rel=\"home\"").toList

/-- The URL references of `testHeader`. -/
def testURLs : List Str :=
  ["http://red.com".toList, "http://purple.com".toList, "http://green.com".toList,
    "http://yellow.com".toList, "http://cyan.com".toList]

/-- The constant `newlineHeader` of the tests: segments separated by a comma and a
newline. -/
def newlineHeader : Str :=
  ("<http://red.com>; rel=first; other=foo,\n<http://purple.com>; rel=last,\n" ++
    "<http://green.com>; rel=next,\n<http://yellow.com>; rel=prev,\n" ++
    "<http://cyan.com>; rel=home").toList

/-- The header `newlineHeader` written on a single line. -/
def singleLineHeader : Str :=
  ("<http://red.com>; rel=first; other=foo,<http://purple.com>; rel=last," ++
    "<http://green.com>; rel=next,<http://yellow.com>; rel=prev," ++
    "<http://cyan.com>; rel=home").toList

/-- The input of the test "expecting error". -/
def badHeader : Str := " <:/fooboar>; rel=first".toList

/-- A header whose second segment has the rejected URL reference of `badHeader`. -/
def goodThenBad : Str := "<http://a.com>; rel=next, <:/fooboar>; rel=first".toList

/-- A segment without a "rel" parameter. -/
def titleOnly : Str := "<http://a.com>; title=\"x\"".toList

/-- The map with the single entry `rel ↦ name`. -/
def relOnly (name : Str) : Params := Params.empty.set relKey name

/-- The map of the first link of `testHeader`: "other" is assigned before "rel". -/
def otherThenRel : Params :=
  (Params.empty.set "other".toList "foo".toList).set relKey "first".toList

/-! ## Vocabulary of the parsing claims -/

/-- The segments the outer loop of `ParseString` ranges over:
`strings.Split(strings.ReplaceAll(header, "\n", ""), ",")`. -/
def segments (s : Str) : List Str := Split (ReplaceAll s '\n' []) ','

/-- The text `ParseString` hands to `url.Parse` for a segment:
`strings.Trim(parts[0], " <>")` with `parts := strings.Split(part, ";")`. -/
def urlRef (seg : Str) : Str := Trim ((Split seg ';').headD []) [' ', '<', '>']

/-- The parameter sub-parts `parts[1:]` of a segment. -/
def paramParts (seg : Str) : List Str := (Split seg ';').drop 1

/-- The key of a parameter sub-part `p`: the text of `p`, trimmed of surrounding white
space, before its first `=`, without surrounding double quotes. -/
def paramKey (p : Str) : Str := Trim ((TrimSpace p).takeWhile (fun c => c ≠ '=')) ['"']

/-- The value of a parameter sub-part `p`: the text of `p`, trimmed of surrounding white
space, after its first `=`, without surrounding double quotes. -/
def paramValue (p : Str) : Str :=
  Trim (((TrimSpace p).dropWhile (fun c => c ≠ '=')).drop 1) ['"']

/-- The map of `TestNewHeader`: five relations with a URL and "another" with nil. -/
def testRelations : List (Str × Option schemeURL.URL) :=
  [("first".toList, some ("http".toList, "//red.com".toList)),
    ("last".toList, some ("http".toList, "//purple.com".toList)),
    ("home".toList, some ("http".toList, "//cyan.com".toList)),
    ("next".toList, some ("http".toList, "//green.com".toList)),
    ("prev".toList, some ("http".toList, "//yellow.com".toList)),
    ("another".toList, none)]

/-- The segment `seg` parses to the link `l`: the URL parser accepts its URL reference
with the URL of `l`, and the parameter loop ends with the map of `l`. -/
def segmentGives (U : URLLib) (seg : Str) (l : Link U) : Prop :=
  U.Parse (urlRef seg) = .ok l.URL ∧
    parseParams (paramParts seg) Params.empty = some l.Params

/-- A header with the unquoted parameter `rel=first`. -/
def unquotedRel : Str := "<http://a.com>; rel=first".toList

/-- A header with the quoted parameter `rel="first"`. -/
def quotedRel : Str := "<http://a.com>; rel=\"first\"".toList

/-- A header whose parameter value contains `=`. -/
def equalsInValue : Str := "<http://a.com>; k=\"a=b\"".toList

/-- A header in which the key "rel" occurs twice. -/
def relTwice : Str := "<http://a.com>; rel=next; rel=last".toList

/-- A header with a tab before the opening angle bracket. -/
def tabBeforeURL : Str := "\t<http://a.com>; rel=next".toList

/-- A header padded with spaces around the bracketed URL. -/
def spacesAroundURL : Str := "  <http://a.com> ; rel=next".toList

/-- A header ending in `;`: its last parameter sub-part is empty. -/
def trailingSemicolon : Str := "<http://a.com>; rel=\"next\";".toList

/-- A header with a parameter that is a bare token. -/
def bareToken : Str := "<http://a.com>; foo".toList

/-- A header with a comma inside a quoted parameter value. -/
def quotedComma : Str := "<http://a.com>; title=\"x,y\"".toList

/-! ## The canonical form of a header -/

/-- The text has none of the separators of the header syntax: no comma, no semicolon
and no newline. -/
def plainText (s : Str) : Prop := ',' ∉ s ∧ ';' ∉ s ∧ '\n' ∉ s

/-- The text neither begins nor ends with a character that satisfies `p`: trimming by
`p` leaves it unchanged. -/
def untrimmed (p : Char → Bool) (s : Str) : Prop :=
  (∀ c ∈ s.head?, p c = false) ∧ (∀ c ∈ s.getLast?, p c = false)

instance (p : Char → Bool) (s : Str) : Decidable (untrimmed p s) := by
  unfold untrimmed; infer_instance

instance (s : Str) : Decidable (plainText s) := by
  unfold plainText; infer_instance

/-- A URL text that survives the segment syntax: it has no separator and neither begins
nor ends with a space or an angle bracket. -/
def cleanURL (t : Str) : Prop :=
  plainText t ∧ untrimmed (fun c => [' ', '<', '>'].contains c) t

instance (t : Str) : Decidable (cleanURL t) := by
  unfold cleanURL; infer_instance

/-- A key and value that survive the parameter syntax: no separator in either, no `=` in
the key, no double quote at either end of the key or the value, and no white space at the
start of the key. -/
def cleanParam (kv : Str × Str) : Prop :=
  plainText kv.1 ∧ plainText kv.2 ∧ '=' ∉ kv.1 ∧
    untrimmed (fun c => ['"'].contains c) kv.1 ∧ untrimmed (fun c => ['"'].contains c) kv.2 ∧
    ∀ c ∈ kv.1.head?, IsSpace c = false

instance (kv : Str × Str) : Decidable (cleanParam kv) := by
  unfold cleanParam; infer_instance

/-- A URL text and a list of pairs that survive the header syntax. -/
def cleanSegment (sg : Str × List (Str × Str)) : Prop :=
  cleanURL sg.1 ∧ ∀ kv ∈ sg.2, cleanParam kv

instance (sg : Str × List (Str × Str)) : Decidable (cleanSegment sg) := by
  unfold cleanSegment; infer_instance

/-- The keys of the pairs are strictly ascending: ascending in the order of
`sort.Strings` and pairwise distinct. -/
def ascendingKeys (kvs : List (Str × Str)) : Prop :=
  (kvs.map Prod.fst).Sorted (fun a b => strLe a b = true) ∧ (kvs.map Prod.fst).Nodup

instance (kvs : List (Str × Str)) : Decidable (ascendingKeys kvs) := by
  unfold ascendingKeys; infer_instance

/-- The canonical header of the tests, as URL texts and pairs. -/
def testSegments : List (Str × List (Str × Str)) :=
  [("http://red.com".toList, [("other".toList, "foo".toList), ("rel".toList, "first".toList)]),
    ("http://purple.com".toList, [("rel".toList, "last".toList)]),
    ("http://green.com".toList, [("rel".toList, "next".toList)]),
    ("http://yellow.com".toList, [("rel".toList, "prev".toList)]),
    ("http://cyan.com".toList, [("rel".toList, "home".toList)])]

/-- The text `key="value"` of a parameter. -/
def canonicalParam (kv : Str × Str) : Str :=
  kv.1 ++ "=\"".toList ++ kv.2 ++ "\"".toList

/-- The canonical text of a link: the URL text in angle brackets and the parameters as
`key="value"`, joined by "; ". -/
def canonicalSegment (t : Str) (kvs : List (Str × Str)) : Str :=
  Join (("<".toList ++ t ++ ">".toList) :: kvs.map canonicalParam) "; ".toList

/-- The canonical text of a header: the canonical texts of its links joined by ", ". -/
def canonicalHeader (segs : List (Str × List (Str × Str))) : Str :=
  Join (segs.map (fun sg => canonicalSegment sg.1 sg.2)) ", ".toList

/-- The map obtained by assigning the pairs in order, starting from the empty map. -/
def ofPairs (kvs : List (Str × Str)) : Params :=
  kvs.foldl (fun m kv => m.set kv.1 kv.2) Params.empty

/-- The pairs `(key, value)` of a map, the keys in the order of `sort.Strings`. -/
def sortedPairs (m : Params) : List (Str × Str) :=
  (sortStrings m.keys).map (fun k => (k, m.get k))

/-- The input of `TestParse`: the canonical header after one space. -/
def spacedTestHeader : Str := ' ' :: testHeader

/-- A header whose parameter key is quoted and begins with a space. -/
def quotedKey : Str := "<http://a.com>; \" a\"=x".toList

/-- The string of the header that `quotedKey` parses to. -/
def quotedKeyFormatted : Str := "<http://a.com>;  a=\"x\"".toList

/-- A header with an unquoted value, unsorted keys and no space after the comma. -/
def mixedHeader : Str := "<http://a.com>; rel=next; a=\"1\",<http://b.com>".toList

/-- The header that `mixedHeader` parses to with `schemeURL`. -/
def mixedParsed : Header schemeURL :=
  ⟨[⟨("http".toList, "//a.com".toList),
      (Params.empty.set "rel".toList "next".toList).set "a".toList "1".toList⟩,
    ⟨("http".toList, "//b.com".toList), Params.empty⟩]⟩

/-- A URL library that accepts every text and formats every URL to a comma: its
formatted URLs do not parse back. -/
def commaURL : URLLib where
  URL := Str
  Err := Unit
  Parse := fun s => .ok s
  String := fun _ => ",".toList

/-! ## Lemmas on strings and maps -/

theorem Contains_iff (rs : List Str) (v : Str) : Contains rs v = true ↔ v ∈ rs := by
  induction rs with
  | nil => simp [Contains]
  | cons x xs ih =>
    by_cases hx : x = v
    · simp [Contains, hx]
    · simp [Contains, hx, ih, Ne.symm hx]

theorem Params.get_ne_nil_iff (m : Params) (k : Str) :
    m.get k ≠ [] ↔ ∃ r, m.lookup k = some r ∧ r ≠ [] := by
  unfold Params.get
  cases h : m.lookup k with
  | none => simp
  | some v => simp

theorem Params.get_of_lookup {m : Params} {k r : Str} (h : m.lookup k = some r) :
    m.get k = r := by
  simp [Params.get, h]

/-- The guard of the loop of `Find` is the property `hasRelIn`. -/
theorem guard_iff {U : URLLib} (l : Link U) (rs : List Str) :
    (l.Params.get relKey ≠ [] ∧ Contains rs (l.Params.get relKey) = true) ↔
      l.hasRelIn rs := by
  rw [Contains_iff, Params.get_ne_nil_iff]
  constructor
  · rintro ⟨⟨r, hr, hne⟩, hmem⟩
    rw [Params.get_of_lookup hr] at hmem
    exact ⟨r, hr, hne, hmem⟩
  · rintro ⟨r, hr, hne, hmem⟩
    refine ⟨⟨r, hr, hne⟩, ?_⟩
    rw [Params.get_of_lookup hr]
    exact hmem

theorem findLoop_cons {U : URLLib} (rs : List Str) (l : Link U) (rest : List (Link U)) :
    (l.hasRelIn rs → findLoop rs (l :: rest) = some l) ∧
    (¬ l.hasRelIn rs → findLoop rs (l :: rest) = findLoop rs rest) := by
  rw [← guard_iff]
  constructor
  · intro h
    simp only [findLoop]
    rw [if_pos]
    simpa using h
  · intro h
    simp only [findLoop]
    rw [if_neg]
    simpa using h

/-- The loop returns the link at index `i` when it is the first one that matches. -/
theorem findLoop_at {U : URLLib} (rs : List Str) :
    ∀ (links : List (Link U)) (i : Nat) (l : Link U), links[i]? = some l → l.hasRelIn rs →
      (∀ j : Nat, j < i → ∀ l2 : Link U, links[j]? = some l2 → ¬ l2.hasRelIn rs) →
      findLoop rs links = some l := by
  intro links
  induction links with
  | nil => intro i l hi; simp at hi
  | cons x xs ih =>
    intro i l hi hl hmin
    cases i with
    | zero =>
      simp at hi
      subst hi
      exact (findLoop_cons rs x xs).1 hl
    | succ n =>
      have hx : ¬ x.hasRelIn rs := hmin 0 (Nat.succ_pos n) x (by simp)
      rw [(findLoop_cons rs x xs).2 hx]
      apply ih n l (by simpa using hi) hl
      intro j hj l2 hl2
      exact hmin (j + 1) (Nat.succ_lt_succ hj) l2 (by simpa using hl2)

/-- Whatever the loop returns is a link of the list that matches, with no match before. -/
theorem findLoop_some {U : URLLib} (rs : List Str) :
    ∀ (links : List (Link U)) (l : Link U), findLoop rs links = some l →
      ∃ i : Nat, links[i]? = some l ∧ l.hasRelIn rs ∧
        ∀ j : Nat, j < i → ∀ l2 : Link U, links[j]? = some l2 → ¬ l2.hasRelIn rs := by
  intro links
  induction links with
  | nil => intro l h; simp [findLoop] at h
  | cons x xs ih =>
    intro l h
    by_cases hx : x.hasRelIn rs
    · rw [(findLoop_cons rs x xs).1 hx] at h
      cases h
      exact ⟨0, by simp, hx, by intro j hj; omega⟩
    · rw [(findLoop_cons rs x xs).2 hx] at h
      obtain ⟨i, hi, hl, hmin⟩ := ih l h
      refine ⟨i + 1, by simpa using hi, hl, ?_⟩
      intro j hj l2 hl2
      cases j with
      | zero =>
        simp at hl2
        subst hl2
        exact hx
      | succ n => exact hmin n (by omega) l2 (by simpa using hl2)

theorem findLoop_none {U : URLLib} (rs : List Str) :
    ∀ (links : List (Link U)), (∀ l ∈ links, ¬ l.hasRelIn rs) → findLoop rs links = none := by
  intro links
  induction links with
  | nil => intro _; rfl
  | cons x xs ih =>
    intro h
    rw [(findLoop_cons rs x xs).2 (h x (by simp))]
    exact ih (fun l hl => h l (by simp [hl]))

theorem findLoop_none_imp {U : URLLib} (rs : List Str) :
    ∀ (links : List (Link U)), findLoop rs links = none → ∀ l ∈ links, ¬ l.hasRelIn rs := by
  intro links
  induction links with
  | nil => intro _ l hl; simp at hl
  | cons x xs ih =>
    intro h l hl
    by_cases hx : x.hasRelIn rs
    · rw [(findLoop_cons rs x xs).1 hx] at h
      cases h
    · rw [(findLoop_cons rs x xs).2 hx] at h
      rcases List.mem_cons.1 hl with rfl | hl2
      · exact hx
      · exact ih h l hl2

/-! ## Relation lookup -/

/-- C1: if some link of `h.Links` has a non-empty "rel" parameter equal to one of the
candidate names `rs`, then `h.Find rs` returns the link at the smallest index of
`h.Links` with that property, whatever the order of the candidates. -/
theorem Find_returns_first_match {U : URLLib} (h : Header U) (rs : List Str)
    (hex : ∃ l ∈ h.Links, l.hasRelIn rs) :
    ∃ (i : Nat) (l : Link U), h.Links[i]? = some l ∧ h.Find rs = some l ∧ l.hasRelIn rs ∧
      ∀ j : Nat, j < i → ∀ l2 : Link U, h.Links[j]? = some l2 → ¬ l2.hasRelIn rs := by
  cases hf : findLoop rs h.Links with
  | none =>
    obtain ⟨l, hl, hm⟩ := hex
    exact absurd hm (findLoop_none_imp rs h.Links hf l hl)
  | some l =>
    obtain ⟨i, hi, hl, hmin⟩ := findLoop_some rs h.Links l hf
    exact ⟨i, l, hi, hf, hl, hmin⟩

/-- With the candidates "first", "last" (in this order) the header `lastNextFirst` has
a match, and the result of `Find` is a link before which no link matches. -/
theorem Find_returns_first_match_witness :
    (∃ l ∈ lastNextFirst.Links, l.hasRelIn ["first".toList, "last".toList]) ∧
    ∃ (i : Nat) (l : Link schemeURL), lastNextFirst.Links[i]? = some l ∧
      lastNextFirst.Find ["first".toList, "last".toList] = some l ∧
      l.hasRelIn ["first".toList, "last".toList] ∧
      ∀ j : Nat, j < i → ∀ l2 : Link schemeURL, lastNextFirst.Links[j]? = some l2 →
        ¬ l2.hasRelIn ["first".toList, "last".toList] :=
  have hex : ∃ l ∈ lastNextFirst.Links, l.hasRelIn ["first".toList, "last".toList] :=
    ⟨relLink "a.com".toList "last".toList, by simp [lastNextFirst],
      "last".toList, by decide, by decide, by decide⟩
  ⟨hex, Find_returns_first_match lastNextFirst ["first".toList, "last".toList] hex⟩

/-- C8: if no link of `h.Links` has the "rel" parameter `r`, then `h.Find [r]` returns
nil; this covers the header without links. -/
theorem Find_absent {U : URLLib} (h : Header U) (r : Str)
    (hno : ∀ l ∈ h.Links, l.Params.lookup relKey ≠ some r) :
    h.Find [r] = none := by
  apply findLoop_none
  intro l hl ⟨r2, hr2, _, hmem⟩
  have : r2 = r := by simpa using hmem
  subst this
  exact hno l hl hr2

/-- No link of `lastNextFirst` has rel "notThere", and `Find` returns nil for it. -/
theorem Find_absent_witness :
    (∀ l ∈ lastNextFirst.Links, l.Params.lookup relKey ≠ some "notThere".toList) ∧
    lastNextFirst.Find ["notThere".toList] = none :=
  have hno : ∀ l ∈ lastNextFirst.Links, l.Params.lookup relKey ≠ some "notThere".toList := by
    intro l hl
    simp only [lastNextFirst, List.mem_cons, List.mem_singleton, List.not_mem_nil, or_false] at hl
    rcases hl with rfl | rfl | rfl <;> decide
  ⟨hno, Find_absent lastNextFirst "notThere".toList hno⟩

theorem hasRelIn_prev {U : URLLib} (l : Link U) :
    l.hasRelIn ["prev".toList, "previous".toList] ↔
      (l.Params.lookup relKey = some "prev".toList ∨
        l.Params.lookup relKey = some "previous".toList) := by
  constructor
  · rintro ⟨r, hr, _, hmem⟩
    simp only [List.mem_cons, List.mem_singleton, List.not_mem_nil, or_false] at hmem
    rcases hmem with rfl | rfl
    · exact Or.inl hr
    · exact Or.inr hr
  · rintro (h | h)
    · exact ⟨_, h, by decide, by decide⟩
    · exact ⟨_, h, by decide, by decide⟩

/-- C9: `h.Prev` returns the earliest link of `h.Links` whose "rel" is "prev" or
"previous": the link at index `i` when it carries one of the two spellings and no link
before it carries either. -/
theorem Prev_returns_earliest {U : URLLib} (h : Header U) (i : Nat) (l : Link U)
    (hi : h.Links[i]? = some l)
    (hl : l.Params.lookup relKey = some "prev".toList ∨
      l.Params.lookup relKey = some "previous".toList)
    (hmin : ∀ j : Nat, j < i → ∀ l2 : Link U, h.Links[j]? = some l2 →
      l2.Params.lookup relKey ≠ some "prev".toList ∧
        l2.Params.lookup relKey ≠ some "previous".toList) :
    h.Prev = some l := by
  apply findLoop_at _ h.Links i l hi ((hasRelIn_prev l).2 hl)
  intro j hj l2 hl2 hm
  rcases (hasRelIn_prev l2).1 hm with h1 | h1
  · exact (hmin j hj l2 hl2).1 h1
  · exact (hmin j hj l2 hl2).2 h1

/-- In `previousFirst` the "previous" link stands before the "prev" link and wins. -/
theorem Prev_returns_earliest_witness :
    previousFirst.Links[0]? = some (relLink "a.com".toList "previous".toList) ∧
    previousFirst.Links[1]? = some (relLink "b.com".toList "prev".toList) ∧
    (relLink "a.com".toList "previous".toList).Params.lookup relKey = some "previous".toList ∧
    previousFirst.Prev = some (relLink "a.com".toList "previous".toList) :=
  ⟨rfl, rfl, by decide,
    Prev_returns_earliest previousFirst 0 (relLink "a.com".toList "previous".toList) rfl
      (Or.inr (by decide)) (fun j hj => absurd hj (Nat.not_lt_zero j))⟩

/-! ## Serialization -/

theorem Join_eq_intercalate (sep : Str) : ∀ xs : List Str, Join xs sep = sep.intercalate xs
  | [] => rfl
  | [x] => by simp [Join, List.intercalate]
  | x :: y :: rest => by
    have ih := Join_eq_intercalate sep (y :: rest)
    simp only [Join, ih, List.intercalate, List.intersperse, List.flatten, List.append_assoc]

/-- The loop of `Header.String` writes the formatted links into the slots that follow
the first `pre.length` ones. -/
theorem fillStrings_eq {U : URLLib} :
    ∀ (links : List (Link U)) (pre suf : List Str),
      fillStrings links pre.length (pre ++ (List.replicate links.length ([] : Str) ++ suf)) =
        pre ++ (links.map Link.String ++ suf) := by
  intro links
  induction links with
  | nil => intro pre suf; simp [fillStrings]
  | cons x xs ih =>
    intro pre suf
    have h := ih (pre ++ [x.String]) suf
    simp only [List.length_append, List.length_singleton, List.append_assoc,
      List.singleton_append] at h
    simp only [fillStrings, List.length_cons, List.replicate_succ, List.map_cons,
      List.cons_append]
    rw [List.set_append_right _ _ (Nat.le_refl _), Nat.sub_self, List.set_cons_zero]
    exact h

/-- C5: `h.String` is the strings of the links `h.Links[0]`, `h.Links[1]`, ... in this
order, joined by the separator ", "; a header without links formats to the empty string
and a header with one link to the string of that link. -/
theorem Header_String_joins_links {U : URLLib} (h : Header U) :
    h.String = ", ".toList.intercalate (h.Links.map Link.String) ∧
    h.String = Join (h.Links.map Link.String) ", ".toList ∧
    (Header.mk ([] : List (Link U))).String = [] ∧
    ∀ l : Link U, (Header.mk [l]).String = l.String := by
  have key : ∀ g : Header U, g.String = Join (g.Links.map Link.String) ", ".toList := by
    intro g
    have h0 := fillStrings_eq g.Links [] []
    simp only [List.length_nil, List.nil_append, List.append_nil] at h0
    simp only [Header.String, h0]
  refine ⟨?_, key h, ?_, ?_⟩
  · rw [key h, Join_eq_intercalate]
  · rw [key]; rfl
  · intro l; rw [key]; rfl

/-! ### The order of `sort.Strings` -/

theorem strLe_total : ∀ a b : Str, strLe a b = true ∨ strLe b a = true
  | [], _ => Or.inl (by simp [strLe])
  | _ :: _, [] => Or.inr (by simp [strLe])
  | a :: as, b :: bs => by
    rcases Nat.lt_trichotomy a.toNat b.toNat with h | h | h
    · left; simp [strLe, h]
    · rcases strLe_total as bs with ih | ih
      · left; simp [strLe, h, ih]
      · right; simp [strLe, h, ih]
    · right; simp [strLe, h]

theorem strLe_antisymm : ∀ a b : Str, strLe a b = true → strLe b a = true → a = b
  | [], [], _, _ => rfl
  | [], _ :: _, _, h => by simp [strLe] at h
  | _ :: _, [], h, _ => by simp [strLe] at h
  | a :: as, b :: bs, h1, h2 => by
    rcases Nat.lt_trichotomy a.toNat b.toNat with h | h | h
    · have hn : ¬ b.toNat < a.toNat := by omega
      simp [strLe, h, hn] at h2
    · have hab : a = b := Char.ext (UInt32.ext (by simpa [Char.toNat] using h))
      subst hab
      simp only [strLe, Nat.lt_irrefl, if_false] at h1 h2
      rw [strLe_antisymm as bs h1 h2]
    · have hn : ¬ a.toNat < b.toNat := by omega
      simp [strLe, h, hn] at h1

theorem strLe_trans : ∀ a b c : Str, strLe a b = true → strLe b c = true → strLe a c = true
  | [], _, _, _, _ => by simp [strLe]
  | _ :: _, [], _, h, _ => by simp [strLe] at h
  | _ :: _, _ :: _, [], _, h => by simp [strLe] at h
  | a :: as, b :: bs, c :: cs, h1, h2 => by
    by_cases hab : a.toNat < b.toNat
    · by_cases hbc : b.toNat < c.toNat
      · have : a.toNat < c.toNat := by omega
        simp [strLe, this]
      · by_cases hcb : c.toNat < b.toNat
        · simp [strLe, hbc, hcb] at h2
        · have : a.toNat < c.toNat := by omega
          simp [strLe, this]
    · by_cases hba : b.toNat < a.toNat
      · simp [strLe, hab, hba] at h1
      · simp only [strLe, hab, hba, if_false] at h1
        by_cases hbc : b.toNat < c.toNat
        · have : a.toNat < c.toNat := by omega
          simp [strLe, this]
        · by_cases hcb : c.toNat < b.toNat
          · simp [strLe, hbc, hcb] at h2
          · simp only [strLe, hbc, hcb, if_false] at h2
            have h3 : ¬ a.toNat < c.toNat := by omega
            have h4 : ¬ c.toNat < a.toNat := by omega
            simp only [strLe, h3, h4, if_false]
            exact strLe_trans as bs cs h1 h2

theorem strLe_isTotal : IsTotal Str (fun a b => strLe a b = true) := ⟨strLe_total⟩

theorem strLe_isTrans : IsTrans Str (fun a b => strLe a b = true) := ⟨strLe_trans⟩

theorem strLe_isAntisymm : IsAntisymm Str (fun a b => strLe a b = true) := ⟨strLe_antisymm⟩

theorem sortStrings_eq_insertionSort (ks : List Str) :
    sortStrings ks = List.insertionSort (fun a b => strLe a b = true) ks := by
  have hins : ∀ (k : Str) (l : List Str),
      insertSorted k l = List.orderedInsert (fun a b => strLe a b = true) k l := by
    intro k l
    induction l with
    | nil => rfl
    | cons x xs ih => simp only [insertSorted, List.orderedInsert, ih]
  induction ks with
  | nil => rfl
  | cons k ks ih => simp only [sortStrings, List.insertionSort, ih, hins]

theorem sortStrings_sorted (ks : List Str) :
    (sortStrings ks).Sorted (fun a b => strLe a b = true) := by
  rw [sortStrings_eq_insertionSort]
  haveI := strLe_isTotal
  haveI := strLe_isTrans
  exact List.sorted_insertionSort _ ks

theorem sortStrings_perm (ks : List Str) : (sortStrings ks).Perm ks := by
  rw [sortStrings_eq_insertionSort]
  exact List.perm_insertionSort _ ks

theorem sortStrings_congr {ks1 ks2 : List Str} (h : ks1.Perm ks2) :
    sortStrings ks1 = sortStrings ks2 :=
  haveI := strLe_isAntisymm
  List.eq_of_perm_of_sorted ((sortStrings_perm ks1).trans (h.trans (sortStrings_perm ks2).symm))
    (sortStrings_sorted ks1) (sortStrings_sorted ks2)

/-! ### `Link.String` -/

theorem appendParams_eq (m : Params) :
    ∀ (ks : List Str) (parts : List Str),
      appendParams m ks parts =
        parts ++ ks.map (fun k => k ++ "=\"".toList ++ m.get k ++ "\"".toList) := by
  intro ks
  induction ks with
  | nil => intro parts; simp [appendParams]
  | cons k ks ih => intro parts; simp [appendParams, ih]

theorem Join_cons (sep x : Str) :
    ∀ rest : List Str, Join (x :: rest) sep = x ++ (rest.map (fun y => sep ++ y)).flatten := by
  intro rest
  induction rest generalizing x with
  | nil => simp [Join]
  | cons y ys ih => simp [Join, ih y]

/-- The string of a link: the bracketed URL, then the text of each parameter, the keys
taken in the order of `sort.Strings`. -/
theorem Link_String_eq {U : URLLib} (l : Link U) :
    l.String = "<".toList ++ U.String l.URL ++ ">".toList ++
      ((sortStrings l.Params.keys).map (paramText l.Params)).flatten := by
  simp only [Link.String, appendParams_eq, List.singleton_append, Join_cons, List.map_map]
  congr 2

theorem Params.mem_keys_iff (m : Params) (k : Str) :
    k ∈ m.keys ↔ ∃ v, m.lookup k = some v := by
  unfold Params.keys Params.lookup
  constructor
  · intro hk
    obtain ⟨e, he, hek⟩ := List.mem_map.1 hk
    cases hf : m.entries.find? (fun e => decide (e.1 = k)) with
    | none =>
      have := List.find?_eq_none.1 hf e he
      simp [hek] at this
    | some e2 => exact ⟨e2.2, rfl⟩
  · rintro ⟨v, hv⟩
    cases hf : m.entries.find? (fun e => decide (e.1 = k)) with
    | none => simp [hf] at hv
    | some e2 =>
      have h1 := List.mem_of_find?_eq_some hf
      have h2 := List.find?_some hf
      exact List.mem_map.2 ⟨e2, h1, by simpa using h2⟩

theorem Params.get_congr {m1 m2 : Params} (h : ∀ k, m1.lookup k = m2.lookup k) (k : Str) :
    m1.get k = m2.get k := by
  simp [Params.get, h k]

theorem Params.keys_perm {m1 m2 : Params} (h : ∀ k, m1.lookup k = m2.lookup k) :
    m1.keys.Perm m2.keys := by
  apply (List.perm_ext_iff_of_nodup m1.nodup m2.nodup).2
  intro k
  show k ∈ m1.keys ↔ k ∈ m2.keys
  rw [Params.mem_keys_iff, Params.mem_keys_iff, h k]

/-- C4: the string of a link is "<" + URL-string + ">" followed, for each key `k` of the
parameters in ascending order, by `; k="v"` with `v` the value under `k`; hence two
links with the same URL and the same key-to-value mapping have the same string, whatever
the order in which the parameters were inserted. -/
theorem Link_String_sorted_keys {U : URLLib} (l l2 : Link U) (hurl : l.URL = l2.URL)
    (hmap : ∀ k, l.Params.lookup k = l2.Params.lookup k) :
    (∃ ks : List Str, ks.Perm l.Params.keys ∧ ks.Sorted (fun a b => strLe a b = true) ∧
      l.String = "<".toList ++ U.String l.URL ++ ">".toList ++
        (ks.map (fun k => "; ".toList ++ k ++ "=\"".toList ++ l.Params.get k ++
          "\"".toList)).flatten) ∧
    l.String = l2.String := by
  refine ⟨⟨sortStrings l.Params.keys, sortStrings_perm _, sortStrings_sorted _,
    Link_String_eq l⟩, ?_⟩
  rw [Link_String_eq l, Link_String_eq l2, hurl, sortStrings_congr (Params.keys_perm hmap)]
  congr 2
  apply List.map_congr_left
  intro k _
  simp only [paramText, Params.get_congr hmap k]

/-- The link of `TestLink_String` formats to `<http://red.com>; other="foo"; rel="first"`
with either insertion order of its two parameters. -/
theorem Link_String_sorted_keys_witness :
    redRelOther.URL = redOtherRel.URL ∧
    (∀ k, redRelOther.Params.lookup k = redOtherRel.Params.lookup k) ∧
    redRelOther.Params.keys ≠ redOtherRel.Params.keys ∧
    redRelOther.String = redOtherRel.String ∧
    redRelOther.String = "<http://red.com>; other=\"foo\"; rel=\"first\"".toList :=
  have hmap : ∀ k, redRelOther.Params.lookup k = redOtherRel.Params.lookup k := by
    intro k
    by_cases h1 : ['o', 't', 'h', 'e', 'r'] = k
    · subst h1; decide
    · by_cases h2 : ['r', 'e', 'l'] = k
      · subst h2; decide
      · simp [Params.lookup, redRelOther, redOtherRel, Params.set, Params.empty, List.find?,
          h1, h2, relKey]
  ⟨rfl, hmap, by decide,
    (Link_String_sorted_keys redRelOther redOtherRel rfl hmap).2, by decide⟩

/-! ## Parsing -/

theorem Split_cons_form (s : Str) (sep : Char) : ∃ p ps, Split s sep = p :: ps := by
  induction s with
  | nil => exact ⟨[], [], rfl⟩
  | cons c cs ih =>
    obtain ⟨p, ps, h⟩ := ih
    by_cases hc : c = sep
    · exact ⟨[], Split cs sep, by simp [Split, hc]⟩
    · exact ⟨c :: p, ps, by simp [Split, hc, h]⟩

theorem SplitN_two_of_mem (sep : Char) :
    ∀ t : Str, sep ∈ t → ∃ a b, SplitN t sep 2 = [a, b] := by
  intro t
  induction t with
  | nil => intro h; simp at h
  | cons c cs ih =>
    intro h
    by_cases hc : c = sep
    · exact ⟨[], cs, by simp [SplitN, hc]⟩
    · have hmem : sep ∈ cs := by
        rcases List.mem_cons.1 h with h1 | h1
        · exact absurd h1.symm hc
        · exact h1
      obtain ⟨a, b, hab⟩ := ih hmem
      exact ⟨c :: a, b, by simp [SplitN, hc, hab]⟩

theorem SplitN_two_of_not_mem (sep : Char) :
    ∀ t : Str, sep ∉ t → SplitN t sep 2 = [t] := by
  intro t
  induction t with
  | nil => intro _; rfl
  | cons c cs ih =>
    intro h
    have hc : ¬ c = sep := fun hc => h (by simp [hc])
    have hcs : sep ∉ cs := fun hm => h (List.mem_cons_of_mem _ hm)
    simp [SplitN, hc, ih hcs]

theorem mem_dropWhile (p : Char → Bool) (c : Char) (hc : p c = false) :
    ∀ s : Str, c ∈ s → c ∈ s.dropWhile p := by
  intro s
  induction s with
  | nil => intro h; exact h
  | cons x xs ih =>
    intro h
    by_cases hx : p x = true
    · rw [List.dropWhile_cons_of_pos hx]
      rcases List.mem_cons.1 h with h1 | h1
      · subst h1; rw [hc] at hx; cases hx
      · exact ih h1
    · rw [List.dropWhile_cons_of_neg hx]
      exact h

theorem mem_TrimSpace_iff (c : Char) (hc : IsSpace c = false) (s : Str) :
    c ∈ TrimSpace s ↔ c ∈ s := by
  constructor
  · intro h
    simp only [TrimSpace, TrimRightFunc, TrimLeftFunc, List.mem_reverse] at h
    exact (List.dropWhile_sublist _).subset ((List.mem_reverse).1
      ((List.dropWhile_sublist _).subset h))
  · intro h
    simp only [TrimSpace, TrimRightFunc, TrimLeftFunc, List.mem_reverse]
    exact mem_dropWhile _ c hc _ (List.mem_reverse.2 (mem_dropWhile _ c hc _ h))

/-- The inner loop does not index out of range when every sub-part has an `=`. -/
theorem parseParams_some_of_eq :
    ∀ (ps : List Str) (acc : Params), (∀ p ∈ ps, '=' ∈ p) → ∃ m, parseParams ps acc = some m := by
  intro ps
  induction ps with
  | nil => intro acc _; exact ⟨acc, rfl⟩
  | cons p ps ih =>
    intro acc h
    have hp : '=' ∈ TrimSpace p := (mem_TrimSpace_iff '=' (by decide) p).2 (h p (by simp))
    obtain ⟨a, b, hab⟩ := SplitN_two_of_mem '=' _ hp
    obtain ⟨m, hm⟩ := ih (acc.set (Trim a ['"']) (Trim b ['"'])) (fun q hq => h q (by simp [hq]))
    exact ⟨m, by simp [parseParams, hab, hm]⟩

/-- One round of the outer loop on a segment whose URL reference is rejected. -/
theorem parseSegments_cons_error (U : URLLib) (part : Str) (rest : List Str)
    (links : List (Link U)) (e : U.Err)
    (h : U.Parse (Trim ((Split part ';').headD []) [' ', '<', '>']) = .error e) :
    parseSegments U (part :: rest) links = .error e := by
  obtain ⟨p, ps, hsp⟩ := Split_cons_form part ';'
  rw [hsp] at h
  simp only [List.headD_cons] at h
  simp [parseSegments, hsp, h]

/-- One round of the outer loop on a segment that parses. -/
theorem parseSegments_cons_ok (U : URLLib) (part : Str) (rest : List Str)
    (links : List (Link U)) (u : U.URL) (m : Params)
    (h : U.Parse (Trim ((Split part ';').headD []) [' ', '<', '>']) = .ok u)
    (hm : parseParams ((Split part ';').drop 1) Params.empty = some m) :
    parseSegments U (part :: rest) links = parseSegments U rest (links ++ [⟨u, m⟩]) := by
  obtain ⟨p, ps, hsp⟩ := Split_cons_form part ';'
  rw [hsp] at h hm
  simp only [List.headD_cons] at h
  simp only [List.drop_succ_cons, List.drop_zero] at hm
  simp [parseSegments, hsp, h, hm]

/-- One round of the outer loop on a segment with a parameter that has no second half. -/
theorem parseSegments_cons_panic (U : URLLib) (part : Str) (rest : List Str)
    (links : List (Link U)) (u : U.URL)
    (h : U.Parse (Trim ((Split part ';').headD []) [' ', '<', '>']) = .ok u)
    (hm : parseParams ((Split part ';').drop 1) Params.empty = none) :
    parseSegments U (part :: rest) links = .panic := by
  obtain ⟨p, ps, hsp⟩ := Split_cons_form part ';'
  rw [hsp] at h hm
  simp only [List.headD_cons] at h
  simp only [List.drop_succ_cons, List.drop_zero] at hm
  simp [parseSegments, hsp, h, hm]

/-- The outer loop returns the error of the URL parser at the first rejected URL reference,
provided the parameters of the segments before it all have an `=`. -/
theorem parseSegments_error (U : URLLib) :
    ∀ (segs : List Str) (links : List (Link U)) (i : Nat) (seg : Str) (e : U.Err),
      segs[i]? = some seg →
      U.Parse (Trim ((Split seg ';').headD []) [' ', '<', '>']) = .error e →
      (∀ j : Nat, j < i → ∀ sj : Str, segs[j]? = some sj →
        ∀ p ∈ (Split sj ';').drop 1, '=' ∈ p) →
      ∃ (j : Nat) (sj : Str) (e2 : U.Err), j ≤ i ∧ segs[j]? = some sj ∧
        U.Parse (Trim ((Split sj ';').headD []) [' ', '<', '>']) = .error e2 ∧
        parseSegments U segs links = .error e2 := by
  intro segs
  induction segs with
  | nil => intro links i seg e h; simp at h
  | cons x xs ih =>
    intro links i seg e hseg hbad hprev
    cases hx : U.Parse (Trim ((Split x ';').headD []) [' ', '<', '>']) with
    | error e1 =>
      exact ⟨0, x, e1, Nat.zero_le _, by simp, hx, parseSegments_cons_error U x xs links e1 hx⟩
    | ok u =>
      cases i with
      | zero =>
        simp at hseg
        subst hseg
        rw [hx] at hbad
        cases hbad
      | succ n =>
        obtain ⟨m, hm⟩ := parseParams_some_of_eq ((Split x ';').drop 1) Params.empty
          (hprev 0 (Nat.succ_pos n) x (by simp))
        rw [parseSegments_cons_ok U x xs links u m hx hm]
        obtain ⟨j, sj, e2, hj, hsj, he2, hres⟩ := ih (links ++ [⟨u, m⟩]) n seg e
          (by simpa using hseg) hbad
          (fun j hj sj hsj => hprev (j + 1) (Nat.succ_lt_succ hj) sj (by simpa using hsj))
        exact ⟨j + 1, sj, e2, Nat.succ_le_succ hj, by simpa using hsj, he2, hres⟩

theorem ReplaceAll_nil_eq_filter (c : Char) :
    ∀ s : Str, ReplaceAll s c [] = s.filter (fun x => x ≠ c) := by
  intro s
  induction s with
  | nil => rfl
  | cons x xs ih =>
    by_cases hx : x = c
    · simp [ReplaceAll, hx, ih]
    · simp [ReplaceAll, hx, ih]

/-- C2: when the URL reference of some segment is rejected by the URL parser and every
parameter sub-part of the segments before it contains `=`, `ParseString` returns an
error (the error of the URL parser on a segment at or before that one) and no header,
even when earlier segments parsed; in particular the input ` <:/fooboar>; rel=first`
yields the error the URL parser gives on `:/fooboar`. -/
theorem ParseString_rejected_url (U : URLLib) (s : Str) (i : Nat) (seg : Str) (e : U.Err)
    (hseg : (Split (ReplaceAll s '\n' []) ',')[i]? = some seg)
    (hbad : U.Parse (Trim ((Split seg ';').headD []) [' ', '<', '>']) = .error e)
    (hprev : ∀ j : Nat, j < i → ∀ sj : Str, (Split (ReplaceAll s '\n' []) ',')[j]? = some sj →
      ∀ p ∈ (Split sj ';').drop 1, '=' ∈ p) :
    (∃ (j : Nat) (sj : Str) (e2 : U.Err), j ≤ i ∧
      (Split (ReplaceAll s '\n' []) ',')[j]? = some sj ∧
      U.Parse (Trim ((Split sj ';').headD []) [' ', '<', '>']) = .error e2 ∧
      ParseString U s = .error e2) ∧
    (∀ e0 : U.Err, U.Parse ":/fooboar".toList = .error e0 →
      ParseString U badHeader = .error e0) := by
  refine ⟨parseSegments_error U _ [] i seg e hseg hbad hprev, ?_⟩
  intro e0 h0
  have hsplit : Split (ReplaceAll badHeader '\n' []) ',' = [badHeader] := by decide
  have htrim : Trim ((Split badHeader ';').headD []) [' ', '<', '>'] = ":/fooboar".toList := by
    decide
  show parseSegments U (Split (ReplaceAll badHeader '\n' []) ',') [] = .error e0
  rw [hsplit]
  exact parseSegments_cons_error U badHeader [] [] e0 (by rw [htrim]; exact h0)

/-- The second segment of `goodThenBad` has a rejected URL reference: the parse fails
although the first segment parsed. -/
theorem ParseString_rejected_url_witness :
    (∃ (j : Nat) (sj : Str) (e2 : Str), j ≤ 1 ∧
      (Split (ReplaceAll goodThenBad '\n' []) ',')[j]? = some sj ∧
      schemeURL.Parse (Trim ((Split sj ';').headD []) [' ', '<', '>']) = .error e2 ∧
      ParseString schemeURL goodThenBad = .error e2) ∧
    (∀ e0 : Str, schemeURL.Parse ":/fooboar".toList = .error e0 →
      ParseString schemeURL badHeader = .error e0) :=
  ParseString_rejected_url schemeURL goodThenBad 1 " <:/fooboar>; rel=first".toList
    "missing protocol scheme".toList (by decide) rfl (by
      intro j hj sj hsj
      have hj0 : j = 0 := by omega
      subst hj0
      have : sj = "<http://a.com>; rel=next".toList := by
        have h0 : (Split (ReplaceAll goodThenBad '\n' []) ',')[0]? =
            some "<http://a.com>; rel=next".toList := by decide
        rw [h0] at hsj
        exact (Option.some.inj hsj).symm
      subst this
      decide)

/-- C7: `ParseString` has the same outcome on `s` and on `s` with every newline
character removed; the header of the test, with a newline after each comma, parses like
its single-line form. -/
theorem ParseString_ignores_newlines (U : URLLib) (s : Str) :
    ParseString U s = ParseString U (s.filter (fun c => c ≠ '\n')) ∧
    ParseString U newlineHeader = ParseString U singleLineHeader := by
  have key : ∀ t : Str, ParseString U t = ParseString U (t.filter (fun c => c ≠ '\n')) := by
    intro t
    simp only [ParseString, ReplaceAll_nil_eq_filter, List.filter_filter, Bool.and_self]
  refine ⟨key s, ?_⟩
  rw [key newlineHeader, key singleLineHeader]
  have h1 : newlineHeader.filter (fun c => c ≠ '\n') = singleLineHeader := by decide
  have h2 : singleLineHeader.filter (fun c => c ≠ '\n') = singleLineHeader := by decide
  rw [h1, h2]

/-- C6 (the code at the empty string): `strings.Split` gives one empty segment, so
`ParseString` hands the empty reference to the URL parser and returns a header with one
link, or the error of the URL parser; it never returns a header without links. -/
theorem ParseString_empty (U : URLLib) :
    ParseString U [] =
      (match U.Parse [] with
        | .ok u => Outcome.ok (Header.mk [Link.mk u Params.empty])
        | .error e => Outcome.error e) ∧
    ParseString schemeURL [] = Outcome.ok (Header.mk [Link.mk ([], []) Params.empty]) := by
  refine ⟨?_, rfl⟩
  cases h : U.Parse [] with
  | ok u => exact parseSegments_cons_ok U [] [] [] u Params.empty h rfl
  | error e => exact parseSegments_cons_error U [] [] [] e h

theorem Header_String_eq_Join {U : URLLib} (g : Header U) :
    g.String = Join (g.Links.map Link.String) ", ".toList := by
  have h0 := fillStrings_eq g.Links [] []
  simp only [List.length_nil, List.nil_append, List.append_nil] at h0
  simp only [Header.String, h0]

/-- C3: when the URL library parses the five URL references of the canonical header and
formats each of them back to its text, `ParseString` succeeds on the canonical header
with exactly five links, and `Header.String` of the result is the canonical header. -/
theorem testHeader_fixed_point (U : URLLib)
    (hU : ∀ t ∈ testURLs, ∃ u : U.URL, U.Parse t = .ok u ∧ U.String u = t) :
    ∃ h : Header U, ParseString U testHeader = .ok h ∧ h.Links.length = 5 ∧
      h.Links.map (fun l => l.Params) =
        [otherThenRel, relOnly "last".toList, relOnly "next".toList, relOnly "prev".toList,
          relOnly "home".toList] ∧
      h.String = testHeader := by
  obtain ⟨u1, hp1, hs1⟩ := hU "http://red.com".toList (by decide)
  obtain ⟨u2, hp2, hs2⟩ := hU "http://purple.com".toList (by decide)
  obtain ⟨u3, hp3, hs3⟩ := hU "http://green.com".toList (by decide)
  obtain ⟨u4, hp4, hs4⟩ := hU "http://yellow.com".toList (by decide)
  obtain ⟨u5, hp5, hs5⟩ := hU "http://cyan.com".toList (by decide)
  have hsplit : Split (ReplaceAll testHeader '\n' []) ',' =
      ["<http://red.com>; other=\"foo\"; rel=\"first\"".toList,
        " <http://purple.com>; rel=\"last\"".toList, " <http://green.com>; rel=\"next\"".toList,
        " <http://yellow.com>; rel=\"prev\"".toList,
        " <http://cyan.com>; rel=\"home\"".toList] := by decide
  refine ⟨⟨[⟨u1, otherThenRel⟩, ⟨u2, relOnly "last".toList⟩, ⟨u3, relOnly "next".toList⟩,
    ⟨u4, relOnly "prev".toList⟩, ⟨u5, relOnly "home".toList⟩]⟩, ?_, rfl, rfl, ?_⟩
  · have t1 : Trim ((Split "<http://red.com>; other=\"foo\"; rel=\"first\"".toList ';').headD [])
        [' ', '<', '>'] = "http://red.com".toList := by decide
    have t2 : Trim ((Split " <http://purple.com>; rel=\"last\"".toList ';').headD [])
        [' ', '<', '>'] = "http://purple.com".toList := by decide
    have t3 : Trim ((Split " <http://green.com>; rel=\"next\"".toList ';').headD [])
        [' ', '<', '>'] = "http://green.com".toList := by decide
    have t4 : Trim ((Split " <http://yellow.com>; rel=\"prev\"".toList ';').headD [])
        [' ', '<', '>'] = "http://yellow.com".toList := by decide
    have t5 : Trim ((Split " <http://cyan.com>; rel=\"home\"".toList ';').headD [])
        [' ', '<', '>'] = "http://cyan.com".toList := by decide
    show parseSegments U (Split (ReplaceAll testHeader '\n' []) ',') [] = _
    rw [hsplit,
      parseSegments_cons_ok U "<http://red.com>; other=\"foo\"; rel=\"first\"".toList _ _ u1
        otherThenRel (t1 ▸ hp1) (by decide),
      parseSegments_cons_ok U " <http://purple.com>; rel=\"last\"".toList _ _ u2
        (relOnly "last".toList) (t2 ▸ hp2) (by decide),
      parseSegments_cons_ok U " <http://green.com>; rel=\"next\"".toList _ _ u3
        (relOnly "next".toList) (t3 ▸ hp3) (by decide),
      parseSegments_cons_ok U " <http://yellow.com>; rel=\"prev\"".toList _ _ u4
        (relOnly "prev".toList) (t4 ▸ hp4) (by decide),
      parseSegments_cons_ok U " <http://cyan.com>; rel=\"home\"".toList _ _ u5
        (relOnly "home".toList) (t5 ▸ hp5) (by decide)]
    rfl
  · rw [Header_String_eq_Join]
    simp only [List.map, Link_String_eq, hs1, hs2, hs3, hs4, hs5]
    decide

/-- The library `schemeURL` parses the five URL references of the canonical header and
formats them back, and the canonical header is a fixed point of parsing and formatting. -/
theorem testHeader_fixed_point_witness :
    (∀ t ∈ testURLs, ∃ u : schemeURL.URL, schemeURL.Parse t = .ok u ∧ schemeURL.String u = t) ∧
    ∃ h : Header schemeURL, ParseString schemeURL testHeader = .ok h ∧ h.Links.length = 5 ∧
      h.Links.map (fun l => l.Params) =
        [otherThenRel, relOnly "last".toList, relOnly "next".toList, relOnly "prev".toList,
          relOnly "home".toList] ∧
      h.String = testHeader :=
  have hU : ∀ t ∈ testURLs, ∃ u : schemeURL.URL,
      schemeURL.Parse t = .ok u ∧ schemeURL.String u = t := by
    intro t ht
    simp only [testURLs, List.mem_cons, List.mem_singleton, List.not_mem_nil, or_false] at ht
    rcases ht with rfl | rfl | rfl | rfl | rfl
    · exact ⟨("http".toList, "//red.com".toList), rfl, by decide⟩
    · exact ⟨("http".toList, "//purple.com".toList), rfl, by decide⟩
    · exact ⟨("http".toList, "//green.com".toList), rfl, by decide⟩
    · exact ⟨("http".toList, "//yellow.com".toList), rfl, by decide⟩
    · exact ⟨("http".toList, "//cyan.com".toList), rfl, by decide⟩
  ⟨hU, testHeader_fixed_point schemeURL hU⟩

/-- A successful run of the outer loop appends one link per segment. -/
theorem parseSegments_ok_length (U : URLLib) :
    ∀ (segs : List Str) (links : List (Link U)) (h : Header U),
      parseSegments U segs links = .ok h → h.Links.length = links.length + segs.length := by
  intro segs
  induction segs with
  | nil =>
    intro links h hok
    simp only [parseSegments, Outcome.ok.injEq] at hok
    subst hok
    simp
  | cons x xs ih =>
    intro links h hok
    cases hx : U.Parse (Trim ((Split x ';').headD []) [' ', '<', '>']) with
    | error e =>
      rw [parseSegments_cons_error U x xs links e hx] at hok
      cases hok
    | ok u =>
      cases hm : parseParams ((Split x ';').drop 1) Params.empty with
      | none =>
        rw [parseSegments_cons_panic U x xs links u hx hm] at hok
        cases hok
      | some m =>
        rw [parseSegments_cons_ok U x xs links u m hx hm] at hok
        rw [ih _ h hok]
        simp only [List.length_append, List.length_cons, List.length_nil]
        omega

/-- C10: a link without a "rel" parameter is retained by parsing but unreachable by
relation lookup.  `ParseString` of the segment `<http://a.com>; title="x"` yields one
link, whose map has no "rel" and which no candidate list finds; every successful parse
has one link per segment; and a link returned by `Find`, for any header and any
candidates (the empty name included), has a "rel" parameter that is present and
non-empty. -/
theorem no_rel_retained_unreachable (U : URLLib) (u : U.URL)
    (hu : U.Parse "http://a.com".toList = .ok u) :
    ParseString U titleOnly =
      .ok ⟨[⟨u, Params.empty.set "title".toList "x".toList⟩]⟩ ∧
    (Params.empty.set "title".toList "x".toList).lookup relKey = none ∧
    (∀ rs : List Str,
      (Header.mk [Link.mk u (Params.empty.set "title".toList "x".toList)]).Find rs = none) ∧
    (∀ (s : Str) (h : Header U), ParseString U s = .ok h →
      h.Links.length = (Split (ReplaceAll s '\n' []) ',').length) ∧
    (∀ (h : Header U) (rs : List Str) (l : Link U), h.Find rs = some l →
      l ∈ h.Links ∧ ∃ r : Str, l.Params.lookup relKey = some r ∧ r ≠ []) := by
  refine ⟨?_, by decide, ?_, ?_, ?_⟩
  · have hsplit : Split (ReplaceAll titleOnly '\n' []) ',' = [titleOnly] := by decide
    have htrim : Trim ((Split titleOnly ';').headD []) [' ', '<', '>'] =
        "http://a.com".toList := by decide
    show parseSegments U (Split (ReplaceAll titleOnly '\n' []) ',') [] = _
    rw [hsplit, parseSegments_cons_ok U titleOnly _ _ u
      (Params.empty.set "title".toList "x".toList) (htrim ▸ hu) (by decide)]
    rfl
  · intro rs
    apply findLoop_none
    intro l hl ⟨r, hr, _, _⟩
    simp only [List.mem_singleton] at hl
    subst hl
    have hnone : (Params.empty.set "title".toList "x".toList).lookup relKey = none := by decide
    rw [hnone] at hr
    cases hr
  · intro s h hok
    have := parseSegments_ok_length U _ [] h hok
    simpa using this
  · intro h rs l hf
    obtain ⟨i, hi, ⟨r, hr, hne, _⟩, _⟩ := findLoop_some rs h.Links l hf
    exact ⟨List.getElem?_mem hi, r, hr, hne⟩

/-- With `schemeURL` the segment `<http://a.com>; title="x"` parses to one link that no
lookup returns, and a lookup with the empty name on it returns nil. -/
theorem no_rel_retained_unreachable_witness :
    schemeURL.Parse "http://a.com".toList = .ok ("http".toList, "//a.com".toList) ∧
    ParseString schemeURL titleOnly =
      .ok ⟨[⟨("http".toList, "//a.com".toList), Params.empty.set "title".toList "x".toList⟩]⟩ ∧
    (Header.mk [(Link.mk ("http".toList, "//a.com".toList)
      (Params.empty.set "title".toList "x".toList) : Link schemeURL)]).Find [[]] = none :=
  have h := no_rel_retained_unreachable schemeURL ("http".toList, "//a.com".toList) rfl
  ⟨rfl, h.1, h.2.2.1 [[]]⟩

/-! ## Construction from a relation map -/

theorem newHeaderLoop_eq {U : URLLib} :
    ∀ (m : List (Str × Option U.URL)) (acc : List (Link U)),
      newHeaderLoop m acc =
        acc ++ m.filterMap (fun e => e.2.map (fun u => Link.mk u (relOnly e.1))) := by
  intro m
  induction m with
  | nil => intro acc; simp [newHeaderLoop]
  | cons e rest ih =>
    intro acc
    obtain ⟨name, ou⟩ := e
    cases ou with
    | none => simp [newHeaderLoop, ih]
    | some u => simp [newHeaderLoop, ih, relOnly, relKey]

/-- C11: the links of `NewHeader m` are, in the iteration order of `m`, one link per
entry whose URL is present, with that URL and the parameter map `rel ↦ name` only;
an entry with an absent URL gives no link, so the number of links is the number of
entries with a URL.  The map of the test (five URLs and "another" with nil) gives five
links. -/
theorem NewHeader_links {U : URLLib} (m : List (Str × Option U.URL)) :
    (NewHeader m).Links = m.filterMap (fun e => e.2.map (fun u => Link.mk u (relOnly e.1))) ∧
    (NewHeader m).Links.length = m.countP (fun e => e.2.isSome) ∧
    (∀ name : Str, (relOnly name).entries = [(relKey, name)]) ∧
    (NewHeader testRelations).Links.length = 5 := by
  have h := newHeaderLoop_eq m []
  simp only [List.nil_append] at h
  refine ⟨h, ?_, fun _ => rfl, by decide⟩
  show (newHeaderLoop m []).length = _
  rw [h]
  induction m with
  | nil => rfl
  | cons e rest ih =>
    obtain ⟨name, ou⟩ := e
    cases ou with
    | none =>
      have := ih (newHeaderLoop_eq rest [])
      simpa [List.filterMap_cons, List.countP_cons] using this
    | some u =>
      have := ih (newHeaderLoop_eq rest [])
      simpa [List.filterMap_cons, List.countP_cons] using this

/-! ## The parameter loop -/

theorem SplitN_two_eq (sep : Char) :
    ∀ t : Str, sep ∈ t →
      SplitN t sep 2 = [t.takeWhile (fun c => c ≠ sep), (t.dropWhile (fun c => c ≠ sep)).drop 1] := by
  intro t
  induction t with
  | nil => intro h; simp at h
  | cons c cs ih =>
    intro h
    by_cases hc : c = sep
    · simp [SplitN, hc, List.takeWhile, List.dropWhile]
    · have hmem : sep ∈ cs := by
        rcases List.mem_cons.1 h with h1 | h1
        · exact absurd h1.symm hc
        · exact h1
      simp [SplitN, hc, ih hmem, List.takeWhile, List.dropWhile]

theorem parseParams_cons_of_eq (p : Str) (rest : List Str) (acc : Params) (hp : '=' ∈ p) :
    parseParams (p :: rest) acc = parseParams rest (acc.set (paramKey p) (paramValue p)) := by
  have ht : '=' ∈ TrimSpace p := (mem_TrimSpace_iff '=' (by decide) p).2 hp
  simp [parseParams, SplitN_two_eq '=' _ ht, paramKey, paramValue]

theorem parseParams_cons_of_not (p : Str) (rest : List Str) (acc : Params) (hp : '=' ∉ p) :
    parseParams (p :: rest) acc = none := by
  have ht : '=' ∉ TrimSpace p := fun h => hp ((mem_TrimSpace_iff '=' (by decide) p).1 h)
  simp [parseParams, SplitN_two_of_not_mem '=' _ ht]

theorem parseParams_eq_foldl :
    ∀ (ps : List Str) (acc : Params), (∀ p ∈ ps, '=' ∈ p) →
      parseParams ps acc = some (ps.foldl (fun m p => m.set (paramKey p) (paramValue p)) acc) := by
  intro ps
  induction ps with
  | nil => intro acc _; rfl
  | cons p ps ih =>
    intro acc h
    rw [parseParams_cons_of_eq p ps acc (h p (by simp)), ih _ (fun q hq => h q (by simp [hq]))]
    rfl

theorem parseParams_none_of_not :
    ∀ (ps : List Str) (acc : Params), (∃ p ∈ ps, '=' ∉ p) → parseParams ps acc = none := by
  intro ps
  induction ps with
  | nil => intro acc h; obtain ⟨p, hp, _⟩ := h; simp at hp
  | cons q ps ih =>
    intro acc h
    by_cases hq : '=' ∈ q
    · rw [parseParams_cons_of_eq q ps acc hq]
      apply ih
      obtain ⟨p, hp, hne⟩ := h
      rcases List.mem_cons.1 hp with rfl | hp2
      · exact absurd hq hne
      · exact ⟨p, hp2, hne⟩
    · exact parseParams_cons_of_not q ps acc hq

theorem parseParams_some_imp :
    ∀ (ps : List Str) (acc m : Params), parseParams ps acc = some m → ∀ p ∈ ps, '=' ∈ p := by
  intro ps acc m h p hp
  by_contra hne
  rw [parseParams_none_of_not ps acc ⟨p, hp, hne⟩] at h
  cases h

theorem Params.lookup_set (m : Params) (k v k2 : Str) :
    (m.set k v).lookup k2 = if k = k2 then some v else m.lookup k2 := by
  by_cases hk : k = k2
  · simp [Params.lookup, Params.set, hk]
  · have hfind : ∀ l : List (Str × Str),
        (l.filter (fun e => decide (e.1 ≠ k))).find? (fun e => decide (e.1 = k2)) =
          l.find? (fun e => decide (e.1 = k2)) := by
      intro l
      rw [List.find?_filter]
      congr 1
      funext a
      by_cases h2 : a.1 = k2
      · have h1 : ¬ a.1 = k := fun h1 => hk (h1.symm.trans h2)
        simp [h1, h2, Ne.symm hk]
      · simp [h2]
    simp only [Params.lookup, Params.set, if_neg hk]
    rw [List.find?_cons_of_neg _ (by simpa using hk), hfind]

theorem lookup_foldl_other (k : Str) :
    ∀ (ps : List Str) (m : Params), (∀ q ∈ ps, paramKey q ≠ k) →
      (ps.foldl (fun m p => m.set (paramKey p) (paramValue p)) m).lookup k = m.lookup k := by
  intro ps
  induction ps with
  | nil => intro m _; rfl
  | cons q ps ih =>
    intro m h
    rw [List.foldl_cons, ih _ (fun r hr => h r (by simp [hr])), Params.lookup_set,
      if_neg (h q (by simp))]

/-- After the parameter loop the map holds, under the key of a sub-part, the value of
the last sub-part with that key. -/
theorem lookup_foldl_last (pre post : List Str) (p : Str) (acc : Params)
    (hlast : ∀ q ∈ post, paramKey q ≠ paramKey p) :
    ((pre ++ p :: post).foldl (fun m p => m.set (paramKey p) (paramValue p)) acc).lookup
      (paramKey p) = some (paramValue p) := by
  rw [List.foldl_append, List.foldl_cons, lookup_foldl_other _ post _ hlast, Params.lookup_set,
    if_pos rfl]

/-! ## The segment loop -/

theorem parseSegments_ok_of_gives (U : URLLib) :
    ∀ (segs : List Str) (links acc : List (Link U)), List.Forall₂ (segmentGives U) segs links →
      parseSegments U segs acc = .ok ⟨acc ++ links⟩ := by
  intro segs
  induction segs with
  | nil =>
    intro links acc h
    cases h
    simp [parseSegments]
  | cons x xs ih =>
    intro links acc h
    cases h with
    | cons hx hrest =>
      rename_i l ls
      rw [parseSegments_cons_ok U x xs acc l.URL l.Params hx.1 hx.2, ih ls _ hrest]
      simp

theorem parseSegments_gives_of_ok (U : URLLib) :
    ∀ (segs : List Str) (acc : List (Link U)) (h : Header U), parseSegments U segs acc = .ok h →
      ∃ links, h.Links = acc ++ links ∧ List.Forall₂ (segmentGives U) segs links := by
  intro segs
  induction segs with
  | nil =>
    intro acc h hok
    simp only [parseSegments, Outcome.ok.injEq] at hok
    subst hok
    exact ⟨[], by simp, List.Forall₂.nil⟩
  | cons x xs ih =>
    intro acc h hok
    cases hx : U.Parse (urlRef x) with
    | error e =>
      rw [parseSegments_cons_error U x xs acc e hx] at hok
      cases hok
    | ok u =>
      cases hm : parseParams (paramParts x) Params.empty with
      | none =>
        rw [parseSegments_cons_panic U x xs acc u hx hm] at hok
        cases hok
      | some m =>
        rw [parseSegments_cons_ok U x xs acc u m hx hm] at hok
        obtain ⟨links, hl, hf⟩ := ih _ h hok
        exact ⟨⟨u, m⟩ :: links, by simp [hl], List.Forall₂.cons ⟨hx, hm⟩ hf⟩

theorem forall₂_getElem? {α β : Type} {R : α → β → Prop} :
    ∀ {xs : List α} {ys : List β}, List.Forall₂ R xs ys → ∀ (i : Nat) (x : α) (y : β),
      xs[i]? = some x → ys[i]? = some y → R x y := by
  intro xs ys h
  induction h with
  | nil => intro i x y hx; simp at hx
  | cons hxy _ ih =>
    intro i x y hx hy
    cases i with
    | zero =>
      simp at hx hy
      subst hx; subst hy
      exact hxy
    | succ n => exact ih n x y (by simpa using hx) (by simpa using hy)

/-- A successful parse gives, at each index, the link of the segment at that index. -/
theorem ParseString_ok_gives (U : URLLib) (s : Str) (h : Header U)
    (hok : ParseString U s = .ok h) : List.Forall₂ (segmentGives U) (segments s) h.Links := by
  obtain ⟨links, hl, hf⟩ := parseSegments_gives_of_ok U (segments s) [] h hok
  simpa [hl] using hf

theorem ParseString_of_gives (U : URLLib) (s : Str) (links : List (Link U))
    (hf : List.Forall₂ (segmentGives U) (segments s) links) : ParseString U s = .ok ⟨links⟩ := by
  have := parseSegments_ok_of_gives U (segments s) links [] hf
  simpa using this

/-- The parse of a header with one segment. -/
theorem ParseString_one (U : URLLib) (s seg ref : Str) (u : U.URL) (m : Params)
    (hs : segments s = [seg]) (href : urlRef seg = ref) (hu : U.Parse ref = .ok u)
    (hm : parseParams (paramParts seg) Params.empty = some m) :
    ParseString U s = .ok ⟨[⟨u, m⟩]⟩ := by
  apply ParseString_of_gives
  rw [hs]
  exact List.Forall₂.cons ⟨by rw [href]; exact hu, hm⟩ List.Forall₂.nil

/-- When every parameter sub-part has an `=`, the segment loop either returns a header,
all URL references being accepted, or returns the error of a rejected URL reference. -/
theorem parseSegments_no_panic (U : URLLib) :
    ∀ (segs : List Str) (acc : List (Link U)),
      (∀ seg ∈ segs, ∀ p ∈ paramParts seg, '=' ∈ p) →
      (∃ h, parseSegments U segs acc = .ok h ∧ ∀ seg ∈ segs, ∃ u, U.Parse (urlRef seg) = .ok u) ∨
      (∃ e, parseSegments U segs acc = .error e ∧ ∃ seg ∈ segs, U.Parse (urlRef seg) = .error e) := by
  intro segs
  induction segs with
  | nil => intro acc _; exact Or.inl ⟨⟨acc⟩, rfl, by simp⟩
  | cons x xs ih =>
    intro acc hall
    cases hx : U.Parse (urlRef x) with
    | error e =>
      exact Or.inr ⟨e, parseSegments_cons_error U x xs acc e hx, x, by simp, hx⟩
    | ok u =>
      obtain ⟨m, hm⟩ := parseParams_some_of_eq (paramParts x) Params.empty (hall x (by simp))
      rw [parseSegments_cons_ok U x xs acc u m hx hm]
      rcases ih (acc ++ [⟨u, m⟩]) (fun seg hseg => hall seg (by simp [hseg])) with
        ⟨h, hok, hall2⟩ | ⟨e, herr, seg, hseg, hbad⟩
      · refine Or.inl ⟨h, hok, ?_⟩
        intro seg hseg
        rcases List.mem_cons.1 hseg with rfl | h2
        · exact ⟨u, hx⟩
        · exact hall2 seg h2
      · exact Or.inr ⟨e, herr, seg, by simp [hseg], hbad⟩

/-! ## Claims on the wrappers and on the parsing of segments -/

/-- C14: the convenience wrappers are fixed calls to `Find`: `First` is `Find "first"`,
`Last` is `Find "last"`, `Next` is `Find "next"`, `Prev` is `Find "prev", "previous"`;
each returns nil when no link has such a relation. -/
theorem wrappers_are_Find {U : URLLib} (h : Header U) :
    h.First = h.Find ["first".toList] ∧ h.Last = h.Find ["last".toList] ∧
    h.Next = h.Find ["next".toList] ∧ h.Prev = h.Find ["prev".toList, "previous".toList] ∧
    ((∀ l ∈ h.Links, l.Params.lookup relKey ≠ some "first".toList) → h.First = none) ∧
    ((∀ l ∈ h.Links, l.Params.lookup relKey ≠ some "last".toList) → h.Last = none) ∧
    ((∀ l ∈ h.Links, l.Params.lookup relKey ≠ some "next".toList) → h.Next = none) ∧
    ((∀ l ∈ h.Links, l.Params.lookup relKey ≠ some "prev".toList ∧
      l.Params.lookup relKey ≠ some "previous".toList) → h.Prev = none) ∧
    lastNextFirst.First = some (relLink "c.com".toList "first".toList) ∧
    lastNextFirst.Prev = none := by
  have single : ∀ r : Str, (∀ l ∈ h.Links, l.Params.lookup relKey ≠ some r) →
      h.Find [r] = none := by
    intro r hno
    apply findLoop_none
    intro l hl ⟨r2, hr2, _, hmem⟩
    have : r2 = r := by simpa using hmem
    subst this
    exact hno l hl hr2
  refine ⟨rfl, rfl, rfl, rfl, single _, single _, single _, ?_, rfl, rfl⟩
  intro hno
  apply findLoop_none
  intro l hl hm
  rcases (hasRelIn_prev l).1 hm with h1 | h1
  · exact (hno l hl).1 h1
  · exact (hno l hl).2 h1

/-- C15: a parameter sub-part `p` that contains `=` is recorded by the loop of
`ParseString` as `key ↦ value`, the key being the text of the trimmed `p` before its
first `=` and the value all the text after it, both without surrounding double quotes.
So `rel=first` and `rel="first"` give the same link, with `rel ↦ first`, and
`k="a=b"` gives `k ↦ a=b`. -/
theorem param_recorded (U : URLLib) (p : Str) (rest : List Str) (acc : Params)
    (hp : '=' ∈ p) :
    parseParams (p :: rest) acc = parseParams rest (acc.set (paramKey p) (paramValue p)) ∧
    (acc.set (paramKey p) (paramValue p)).lookup (paramKey p) = some (paramValue p) ∧
    (∀ u : U.URL, U.Parse "http://a.com".toList = .ok u →
      ParseString U unquotedRel = .ok ⟨[⟨u, relOnly "first".toList⟩]⟩ ∧
      ParseString U quotedRel = .ok ⟨[⟨u, relOnly "first".toList⟩]⟩ ∧
      ParseString U equalsInValue =
        .ok ⟨[⟨u, Params.empty.set "k".toList "a=b".toList⟩]⟩) := by
  refine ⟨parseParams_cons_of_eq p rest acc hp, by rw [Params.lookup_set, if_pos rfl], ?_⟩
  intro u hu
  refine ⟨?_, ?_, ?_⟩
  · exact ParseString_one U unquotedRel unquotedRel "http://a.com".toList u _
      (by decide) (by decide) hu (by decide)
  · exact ParseString_one U quotedRel quotedRel "http://a.com".toList u _
      (by decide) (by decide) hu (by decide)
  · exact ParseString_one U equalsInValue equalsInValue "http://a.com".toList u _
      (by decide) (by decide) hu (by decide)

/-- The sub-part ` rel="first"` has the key `rel` and the value `first`, and
`schemeURL` parses the three headers of the claim. -/
theorem param_recorded_witness :
    '=' ∈ " rel=\"first\"".toList ∧
    paramKey " rel=\"first\"".toList = "rel".toList ∧
    paramValue " rel=\"first\"".toList = "first".toList ∧
    paramValue " k=\"a=b\"".toList = "a=b".toList ∧
    parseParams [" rel=\"first\"".toList] Params.empty =
      parseParams [] (Params.empty.set (paramKey " rel=\"first\"".toList)
        (paramValue " rel=\"first\"".toList)) ∧
    ParseString schemeURL unquotedRel = ParseString schemeURL quotedRel ∧
    ParseString schemeURL equalsInValue =
      .ok ⟨[⟨("http".toList, "//a.com".toList), Params.empty.set "k".toList "a=b".toList⟩]⟩ :=
  have h := param_recorded schemeURL " rel=\"first\"".toList [] Params.empty (by decide)
  have h3 := h.2.2 ("http".toList, "//a.com".toList) rfl
  ⟨by decide, by decide, by decide, by decide, h.1, h3.1.trans h3.2.1.symm, h3.2.2⟩

/-- C16 (the code on a tab before the URL): `strings.Trim(parts[0], " <>")` removes
spaces and angle brackets only.  Around spaces the URL reference of `<http://a.com>` is
`http://a.com`; after a tab the trimming stops at once, so the URL parser is handed the
tab and the opening bracket, and the outcome of `ParseString` is its verdict on that
text. -/
theorem urlRef_keeps_tab (U : URLLib) :
    urlRef "  <http://a.com> ".toList = "http://a.com".toList ∧
    urlRef "\t<http://a.com>".toList = "\t<http://a.com".toList ∧
    TrimSpace "\t<http://a.com> ".toList = "<http://a.com>".toList ∧
    ParseString U tabBeforeURL =
      (match U.Parse "\t<http://a.com".toList with
        | .ok u => Outcome.ok (Header.mk [Link.mk u (relOnly "next".toList)])
        | .error e => Outcome.error e) := by
  refine ⟨by decide, by decide, by decide, ?_⟩
  have hs : segments tabBeforeURL = [tabBeforeURL] := by decide
  have href : urlRef tabBeforeURL = "\t<http://a.com".toList := by decide
  cases hu : U.Parse "\t<http://a.com".toList with
  | ok u =>
    exact ParseString_one U tabBeforeURL tabBeforeURL _ u _ hs href hu (by decide)
  | error e =>
    show parseSegments U (segments tabBeforeURL) [] = _
    rw [hs]
    exact parseSegments_cons_error U tabBeforeURL [] [] e (by rw [← hu, ← href]; rfl)

/-- C17: when a parse succeeds, the map of the link of a segment holds, under the key of
a parameter sub-part that no later sub-part of the segment repeats, the value of that
sub-part: the last occurrence of a key wins, and a repeated key is no error.  The header
`<http://a.com>; rel=next; rel=last` parses to one link with `rel ↦ last`. -/
theorem last_duplicate_wins (U : URLLib) (s : Str) (h : Header U) (i : Nat)
    (seg : Str) (l : Link U) (pre post : List Str) (p : Str)
    (hok : ParseString U s = .ok h) (hseg : (segments s)[i]? = some seg)
    (hl : h.Links[i]? = some l) (hparts : paramParts seg = pre ++ p :: post)
    (hlast : ∀ q ∈ post, paramKey q ≠ paramKey p) :
    l.Params.lookup (paramKey p) = some (paramValue p) ∧
    (∀ u : U.URL, U.Parse "http://a.com".toList = .ok u →
      ParseString U relTwice = .ok ⟨[⟨u, relOnly "last".toList⟩]⟩) ∧
    (relOnly "last".toList).lookup relKey = some "last".toList := by
  refine ⟨?_, ?_, by decide⟩
  · have hg := forall₂_getElem? (ParseString_ok_gives U s h hok) i seg l hseg hl
    have hm := hg.2
    rw [parseParams_eq_foldl _ _ (parseParams_some_imp _ _ _ hm)] at hm
    rw [← Option.some.inj hm, hparts]
    exact lookup_foldl_last pre post p Params.empty hlast
  · intro u hu
    exact ParseString_one U relTwice relTwice "http://a.com".toList u _
      (by decide) (by decide) hu (by decide)

/-- In `<http://a.com>; rel=next; rel=last` the sub-part ` rel=last` is the last one with
the key `rel`, and the link has `rel ↦ last`. -/
theorem last_duplicate_wins_witness :
    paramParts relTwice = [" rel=next".toList] ++ " rel=last".toList :: [] ∧
    paramKey " rel=next".toList = paramKey " rel=last".toList ∧
    ParseString schemeURL relTwice =
      .ok ⟨[⟨("http".toList, "//a.com".toList), relOnly "last".toList⟩]⟩ ∧
    (relOnly "last".toList).lookup (paramKey " rel=last".toList) =
      some (paramValue " rel=last".toList) :=
  have hok : ParseString schemeURL relTwice =
      .ok ⟨[⟨("http".toList, "//a.com".toList), relOnly "last".toList⟩]⟩ :=
    ParseString_one schemeURL relTwice relTwice "http://a.com".toList _ _
      (by decide) (by decide) rfl (by decide)
  have h := last_duplicate_wins schemeURL relTwice _ 0 relTwice
    ⟨("http".toList, "//a.com".toList), relOnly "last".toList⟩ [" rel=next".toList] []
    " rel=last".toList hok (by decide) rfl (by decide) (by simp)
  ⟨by decide, by decide, hok, h.1⟩

/-! ## Segments and the comma -/

theorem ReplaceAll_append (c : Char) (new : Str) :
    ∀ a b : Str, ReplaceAll (a ++ b) c new = ReplaceAll a c new ++ ReplaceAll b c new := by
  intro a b
  induction a with
  | nil => rfl
  | cons x xs ih =>
    by_cases hx : x = c
    · simp [ReplaceAll, hx, ih]
    · simp [ReplaceAll, hx, ih]

theorem Split_append_sep (sep : Char) :
    ∀ a b : Str, Split (a ++ sep :: b) sep = Split a sep ++ Split b sep := by
  intro a b
  induction a with
  | nil => simp [Split]
  | cons c cs ih =>
    by_cases hc : c = sep
    · simp [Split, hc, ih]
    · obtain ⟨p, ps, hp⟩ := Split_cons_form cs sep
      simp [Split, hc, ih, hp]

theorem Split_of_not_mem (sep : Char) : ∀ a : Str, sep ∉ a → Split a sep = [a] := by
  intro a
  induction a with
  | nil => intro _; rfl
  | cons c cs ih =>
    intro h
    have hc : ¬ c = sep := fun hc => h (by simp [hc])
    have hcs : sep ∉ cs := fun hm => h (List.mem_cons_of_mem _ hm)
    simp [Split, hc, ih hcs]

theorem Split_length (sep : Char) : ∀ a : Str, (Split a sep).length = Count a sep + 1 := by
  intro a
  induction a with
  | nil => rfl
  | cons c cs ih =>
    by_cases hc : c = sep
    · simp [Split, Count, hc, ih]
    · obtain ⟨p, ps, hp⟩ := Split_cons_form cs sep
      rw [hp] at ih
      simp [Split, Count, hc, hp] at ih ⊢
      exact ih

theorem Count_ReplaceAll (c sep : Char) (hne : c ≠ sep) :
    ∀ a : Str, Count (ReplaceAll a c []) sep = Count a sep := by
  intro a
  induction a with
  | nil => rfl
  | cons x xs ih =>
    by_cases hx : x = c
    · have hxs : ¬ x = sep := fun h => hne (hx.symm.trans h)
      simp [ReplaceAll, Count, hx, ih, hne]
    · by_cases hxs : x = sep
      · subst hxs
        simp [ReplaceAll, Count, hx, ih]
      · simp [ReplaceAll, Count, hx, hxs, ih]

theorem segments_append (a b : Str) :
    segments (a ++ ',' :: b) = segments a ++ segments b := by
  have h1 : ReplaceAll (',' :: b) '\n' [] = ',' :: ReplaceAll b '\n' [] := by
    simp [ReplaceAll]
  simp only [segments, ReplaceAll_append, h1, Split_append_sep]

theorem segments_length (s : Str) : (segments s).length = Count s ',' + 1 := by
  simp only [segments, Split_length, Count_ReplaceAll '\n' ',' (by decide)]

/-- C18: parsing distributes over the comma and keeps the order of the segments: when
`a` parses to the links `La` and `b` to the links `Lb`, `a + "," + b` parses to `La`
followed by `Lb`.  Every successful parse of `s` has as many links as `s` has commas,
plus one, and the link at each index is the one of the segment at that index. -/
theorem ParseString_distributes (U : URLLib) (a b : Str) (La Lb : List (Link U))
    (ha : ParseString U a = .ok ⟨La⟩) (hb : ParseString U b = .ok ⟨Lb⟩) :
    ParseString U (a ++ ",".toList ++ b) = .ok ⟨La ++ Lb⟩ ∧
    (∀ (s : Str) (h : Header U), ParseString U s = .ok h →
      h.Links.length = Count s ',' + 1 ∧
      List.Forall₂ (segmentGives U) (segments s) h.Links) := by
  constructor
  · apply ParseString_of_gives
    have e : a ++ ",".toList ++ b = a ++ ',' :: b := by simp
    rw [e, segments_append]
    exact List.rel_append (ParseString_ok_gives U a _ ha) (ParseString_ok_gives U b _ hb)
  · intro s h hok
    have hg := ParseString_ok_gives U s h hok
    exact ⟨by rw [← hg.length_eq, segments_length], hg⟩

/-- The header `<http://a.com>; title="x,y"` has its comma inside quotes; its two sides
parse with `schemeURL` to one link each, and the whole to two links. -/
theorem ParseString_distributes_witness :
    quotedComma = "<http://a.com>; title=\"x".toList ++ ",".toList ++ "y\"".toList ∧
    Count quotedComma ',' = 1 ∧
    ParseString schemeURL quotedComma =
      .ok ⟨[⟨("http".toList, "//a.com".toList),
          Params.empty.set "title".toList "x".toList⟩] ++
        [⟨([], "y\"".toList), Params.empty⟩]⟩ :=
  ⟨by decide, by decide,
    (ParseString_distributes schemeURL "<http://a.com>; title=\"x".toList "y\"".toList
      [⟨("http".toList, "//a.com".toList), Params.empty.set "title".toList "x".toList⟩]
      [⟨([], "y\"".toList), Params.empty⟩]
      (ParseString_one schemeURL _ "<http://a.com>; title=\"x".toList "http://a.com".toList _ _
        (by decide) (by decide) rfl (by decide))
      (ParseString_one schemeURL _ "y\"".toList "y\"".toList _ _
        (by decide) (by decide) rfl (by decide))).1⟩

/-- C19: when every parameter sub-part of every segment contains `=`, `ParseString` does
not index out of range: it returns a header exactly when the URL reference of every
segment is accepted, and otherwise returns the error of the URL parser on one of the
segments. -/
theorem ParseString_total_with_equals (U : URLLib) (s : Str)
    (hall : ∀ seg ∈ segments s, ∀ p ∈ paramParts seg, '=' ∈ p) :
    ParseString U s ≠ .panic ∧
    ((∃ h, ParseString U s = .ok h) ↔ ∀ seg ∈ segments s, ∃ u, U.Parse (urlRef seg) = .ok u) ∧
    ((∃ e, ParseString U s = .error e) ↔ ∃ seg ∈ segments s, ∃ e, U.Parse (urlRef seg) = .error e) ∧
    (∀ e, ParseString U s = .error e → ∃ seg ∈ segments s, U.Parse (urlRef seg) = .error e) := by
  have key := parseSegments_no_panic U (segments s) [] hall
  have hdef : ParseString U s = parseSegments U (segments s) [] := rfl
  rw [hdef]
  rcases key with ⟨h, hok, hall2⟩ | ⟨e, herr, seg, hseg, hbad⟩
  · rw [hok]
    refine ⟨by simp, ⟨fun _ => hall2, fun _ => ⟨h, rfl⟩⟩, ⟨?_, ?_⟩, ?_⟩
    · rintro ⟨e, he⟩; cases he
    · rintro ⟨seg, hseg, e, he⟩
      obtain ⟨u, hu⟩ := hall2 seg hseg
      rw [hu] at he
      cases he
    · intro e he; cases he
  · rw [herr]
    refine ⟨by simp, ⟨?_, ?_⟩, ⟨fun _ => ⟨seg, hseg, e, hbad⟩, fun _ => ⟨e, rfl⟩⟩, ?_⟩
    · rintro ⟨h, hh⟩; cases hh
    · intro hall2
      obtain ⟨u, hu⟩ := hall2 seg hseg
      rw [hu] at hbad
      cases hbad
    · intro e2 he2
      cases he2
      exact ⟨seg, hseg, hbad⟩

/-- Every parameter sub-part of `goodThenBad` has an `=`; its second URL reference is
rejected by `schemeURL`, and the parse returns an error. -/
theorem ParseString_total_with_equals_witness :
    (∀ seg ∈ segments goodThenBad, ∀ p ∈ paramParts seg, '=' ∈ p) ∧
    ParseString schemeURL goodThenBad ≠ .panic ∧
    ∃ e, ParseString schemeURL goodThenBad = .error e :=
  have hall : ∀ seg ∈ segments goodThenBad, ∀ p ∈ paramParts seg, '=' ∈ p := by decide
  have h := ParseString_total_with_equals schemeURL goodThenBad hall
  ⟨hall, h.1, h.2.2.1.2 ⟨" <:/fooboar>; rel=first".toList, by decide,
    "missing protocol scheme".toList, rfl⟩⟩

/-- C20: when the URL reference of the first segment is accepted and one of its parameter
sub-parts, trimmed of white space, has no `=`, `ParseString` returns neither a header nor
an error: the read of `kv[1]` is out of range. -/
theorem ParseString_panics_without_equals (U : URLLib) (s first : Str) (rest : List Str)
    (u : U.URL) (p : Str) (hsegs : segments s = first :: rest)
    (hu : U.Parse (urlRef first) = .ok u) (hp : p ∈ paramParts first)
    (hne : '=' ∉ TrimSpace p) :
    ParseString U s = .panic ∧ (∀ h, ParseString U s ≠ .ok h) ∧
    (∀ e, ParseString U s ≠ .error e) ∧ (SplitN (TrimSpace p) '=' 2)[1]? = none := by
  have hpanic : ParseString U s = .panic := by
    show parseSegments U (segments s) [] = .panic
    rw [hsegs]
    apply parseSegments_cons_panic U first rest [] u hu
    apply parseParams_none_of_not
    exact ⟨p, hp, fun h => hne ((mem_TrimSpace_iff '=' (by decide) p).2 h)⟩
  refine ⟨hpanic, ?_, ?_, ?_⟩
  · intro h hh; rw [hpanic] at hh; cases hh
  · intro e he; rw [hpanic] at he; cases he
  · rw [SplitN_two_of_not_mem '=' _ hne]; rfl

/-- The headers `<http://a.com>; rel="next";` and `<http://a.com>; foo` make
`ParseString` panic with `schemeURL`. -/
theorem ParseString_panics_without_equals_witness :
    [] ∈ paramParts trailingSemicolon ∧ " foo".toList ∈ paramParts bareToken ∧
    ParseString schemeURL trailingSemicolon = .panic ∧
    ParseString schemeURL bareToken = .panic :=
  ⟨by decide, by decide,
    (ParseString_panics_without_equals schemeURL trailingSemicolon trailingSemicolon []
      ("http".toList, "//a.com".toList) [] (by decide) rfl (by decide) (by decide)).1,
    (ParseString_panics_without_equals schemeURL bareToken bareToken []
      ("http".toList, "//a.com".toList) " foo".toList (by decide) rfl (by decide) (by decide)).1⟩

/-! ## Trimming -/

theorem trim_eq_rdropWhile (p : Char → Bool) (s : Str) :
    TrimRightFunc (TrimLeftFunc s p) p = List.rdropWhile p (s.dropWhile p) := rfl

theorem dropWhile_of_head (p : Char → Bool) :
    ∀ s : Str, (∀ c ∈ s.head?, p c = false) → s.dropWhile p = s := by
  intro s h
  cases s with
  | nil => rfl
  | cons c cs =>
    have hc : p c = false := h c rfl
    simp [List.dropWhile, hc]

theorem rdropWhile_of_last (p : Char → Bool) (s : Str)
    (h : ∀ c ∈ s.getLast?, p c = false) : List.rdropWhile p s = s := by
  apply List.rdropWhile_eq_self_iff.2
  intro hl
  have := h (s.getLast hl) (List.getLast?_eq_getLast _ hl)
  simp [this]

theorem rdropWhile_append_of_pos (p : Char → Bool) (s b : Str) (hb : ∀ c ∈ b, p c = true) :
    List.rdropWhile p (s ++ b) = List.rdropWhile p s := by
  unfold List.rdropWhile
  rw [List.reverse_append, List.dropWhile_append_of_pos]
  intro c hc
  exact hb c (List.mem_reverse.1 hc)

/-- Trimming removes a padding made of trimmed characters around an untrimmed text. -/
theorem trim_pad (p : Char → Bool) (a s b : Str) (ha : ∀ c ∈ a, p c = true)
    (hb : ∀ c ∈ b, p c = true) (hs : untrimmed p s) :
    TrimRightFunc (TrimLeftFunc (a ++ (s ++ b)) p) p = s := by
  rw [trim_eq_rdropWhile, List.dropWhile_append_of_pos ha]
  cases s with
  | nil =>
    have : ([] ++ b).dropWhile p = [] := by
      rw [List.nil_append]
      exact List.dropWhile_eq_nil_iff.2 hb
    rw [this]
    rfl
  | cons c cs =>
    have hc : p c = false := hs.1 c rfl
    have : ((c :: cs) ++ b).dropWhile p = (c :: cs) ++ b := by
      simp [List.dropWhile, hc]
    rw [this, rdropWhile_append_of_pos p _ b hb]
    exact rdropWhile_of_last p _ hs.2

theorem trim_fixed (p : Char → Bool) (s : Str) (hs : untrimmed p s) :
    TrimRightFunc (TrimLeftFunc s p) p = s := by
  have := trim_pad p [] s [] (by simp) (by simp) hs
  simpa using this

/-- The result of a trimming neither begins nor ends with a trimmed character. -/
theorem trim_untrimmed (p : Char → Bool) (s : Str) :
    untrimmed p (TrimRightFunc (TrimLeftFunc s p) p) := by
  rw [trim_eq_rdropWhile]
  constructor
  · intro c hc
    obtain ⟨t, ht⟩ := List.rdropWhile_prefix p (s.dropWhile p)
    cases hz : List.rdropWhile p (s.dropWhile p) with
    | nil => rw [hz] at hc; simp at hc
    | cons z zs =>
      rw [hz] at hc ht
      have hzc : z = c := by simpa using hc
      subst hzc
      have hhead : (s.dropWhile p).head? = some z := by rw [← ht]; rfl
      have := List.head?_dropWhile_not p s
      rw [hhead] at this
      simpa using this
  · intro c hc
    by_cases hl : List.rdropWhile p (s.dropWhile p) = []
    · rw [hl] at hc; simp at hc
    · have := List.rdropWhile_last_not p (s.dropWhile p) hl
      rw [List.getLast?_eq_getLast _ hl] at hc
      have hcc : (List.rdropWhile p (s.dropWhile p)).getLast hl = c := by simpa using hc
      rw [hcc] at this
      simpa using this

theorem mem_of_mem_trim (p : Char → Bool) (s : Str) (c : Char)
    (h : c ∈ TrimRightFunc (TrimLeftFunc s p) p) : c ∈ s := by
  rw [trim_eq_rdropWhile] at h
  exact (List.dropWhile_sublist p).subset ((List.rdropWhile_prefix p _).sublist.subset h)

/-! ## Joining and splitting -/

theorem mem_Join (c : Char) (sep : Str) :
    ∀ xs : List Str, c ∈ Join xs sep → c ∈ sep ∨ ∃ x ∈ xs, c ∈ x := by
  intro xs
  induction xs with
  | nil => intro h; simp [Join] at h
  | cons x rest ih =>
    intro h
    cases rest with
    | nil => exact Or.inr ⟨x, by simp, by simpa [Join] using h⟩
    | cons y r =>
      simp only [Join, List.mem_append] at h
      rcases h with (h | h) | h
      · exact Or.inr ⟨x, by simp, h⟩
      · exact Or.inl h
      · rcases ih h with h2 | ⟨z, hz, hcz⟩
        · exact Or.inl h2
        · exact Or.inr ⟨z, List.mem_cons_of_mem _ hz, hcz⟩

/-- Splitting a joined list at the first character of the separator gives the elements
back, each but the first preceded by the rest of the separator. -/
theorem Split_Join (c : Char) (pad : Str) (hpad : c ∉ pad) :
    ∀ (rest : List Str) (pre x : Str), c ∉ pre → c ∉ x → (∀ y ∈ rest, c ∉ y) →
      Split (pre ++ Join (x :: rest) (c :: pad)) c = (pre ++ x) :: rest.map (fun y => pad ++ y) := by
  intro rest
  induction rest with
  | nil =>
    intro pre x hpre hx _
    simp only [Join, List.map_nil]
    exact Split_of_not_mem c _ (by simp [hpre, hx])
  | cons y r ih =>
    intro pre x hpre hx hrest
    have e : pre ++ Join (x :: y :: r) (c :: pad) =
        (pre ++ x) ++ c :: (pad ++ Join (y :: r) (c :: pad)) := by
      simp [Join]
    rw [e, Split_append_sep, Split_of_not_mem c (pre ++ x) (by simp [hpre, hx]),
      ih pad y hpad (hrest y (by simp)) (fun z hz => hrest z (by simp [hz]))]
    simp

/-! ## Parsing a canonical segment -/

theorem takeWhile_ne_append (c : Char) (rest : Str) :
    ∀ k : Str, c ∉ k → (k ++ c :: rest).takeWhile (fun x => x ≠ c) = k ∧
      (k ++ c :: rest).dropWhile (fun x => x ≠ c) = c :: rest := by
  intro k
  induction k with
  | nil => intro _; simp [List.takeWhile, List.dropWhile]
  | cons x xs ih =>
    intro h
    have hx : ¬ x = c := fun hx => h (by simp [hx])
    have hxs : c ∉ xs := fun hm => h (List.mem_cons_of_mem _ hm)
    obtain ⟨h1, h2⟩ := ih hxs
    constructor
    · have e : List.takeWhile (fun y => decide (y ≠ c)) (x :: (xs ++ c :: rest)) =
          x :: List.takeWhile (fun y => decide (y ≠ c)) (xs ++ c :: rest) := by
        simp [List.takeWhile, hx]
      show List.takeWhile _ (x :: (xs ++ c :: rest)) = _
      rw [e, h1]
    · have e : List.dropWhile (fun y => decide (y ≠ c)) (x :: (xs ++ c :: rest)) =
          List.dropWhile (fun y => decide (y ≠ c)) (xs ++ c :: rest) := by
        simp [List.dropWhile, hx]
      show List.dropWhile _ (x :: (xs ++ c :: rest)) = _
      rw [e, h2]

theorem canonicalParam_eq (kv : Str × Str) :
    canonicalParam kv = kv.1 ++ '=' :: ('"' :: (kv.2 ++ ['"'])) := by
  simp [canonicalParam]

/-- The sub-part ` key="value"` is trimmed by `TrimSpace` to `key="value"`. -/
theorem TrimSpace_piece (kv : Str × Str) (hk : ∀ c ∈ kv.1.head?, IsSpace c = false) :
    TrimSpace (' ' :: canonicalParam kv) = canonicalParam kv := by
  have hu : untrimmed IsSpace (canonicalParam kv) := by
    rw [canonicalParam_eq]
    constructor
    · intro c hc
      cases hk1 : kv.1 with
      | nil =>
        rw [hk1] at hc
        have : c = '=' := by simpa using hc.symm
        subst this
        decide
      | cons x xs =>
        rw [hk1] at hc hk
        have : x = c := by simpa using hc
        subst this
        exact hk x rfl
    · intro c hc
      have e : kv.1 ++ '=' :: ('"' :: (kv.2 ++ ['"'])) = (kv.1 ++ '=' :: '"' :: kv.2) ++ ['"'] := by
        simp
      rw [e, List.getLast?_concat] at hc
      have : c = '"' := by simpa using hc.symm
      subst this
      decide
  have := trim_pad IsSpace [' '] (canonicalParam kv) [] (by decide) (by simp) hu
  simpa [TrimSpace] using this

theorem paramKey_piece (kv : Str × Str) (hc : cleanParam kv) :
    paramKey (' ' :: canonicalParam kv) = kv.1 := by
  obtain ⟨_, _, heq, hq1, _, hsp⟩ := hc
  unfold paramKey
  rw [TrimSpace_piece kv hsp, canonicalParam_eq, (takeWhile_ne_append '=' _ kv.1 heq).1]
  exact trim_fixed _ kv.1 hq1

theorem paramValue_piece (kv : Str × Str) (hc : cleanParam kv) :
    paramValue (' ' :: canonicalParam kv) = kv.2 := by
  obtain ⟨_, _, heq, _, hq2, hsp⟩ := hc
  unfold paramValue
  rw [TrimSpace_piece kv hsp, canonicalParam_eq, (takeWhile_ne_append '=' _ kv.1 heq).2]
  have := trim_pad (fun c => ['"'].contains c) ['"'] kv.2 ['"'] (by decide) (by decide) hq2
  simpa [Trim] using this

theorem parseParams_pieces :
    ∀ (kvs : List (Str × Str)) (acc : Params), (∀ kv ∈ kvs, cleanParam kv) →
      parseParams (kvs.map (fun kv => ' ' :: canonicalParam kv)) acc =
        some (kvs.foldl (fun m kv => m.set kv.1 kv.2) acc) := by
  intro kvs
  induction kvs with
  | nil => intro acc _; rfl
  | cons kv rest ih =>
    intro acc h
    have hc := h kv (by simp)
    have hmem : '=' ∈ ' ' :: canonicalParam kv := by
      rw [canonicalParam_eq]; simp
    rw [List.map_cons, parseParams_cons_of_eq _ _ _ hmem, paramKey_piece kv hc,
      paramValue_piece kv hc, ih _ (fun x hx => h x (by simp [hx]))]
    rfl

theorem not_mem_canonicalParam (c : Char) (kv : Str × Str) (h1 : c ∉ kv.1) (h2 : c ∉ kv.2)
    (h3 : c ≠ '=') (h4 : c ≠ '"') : c ∉ canonicalParam kv := by
  rw [canonicalParam_eq]
  simp [h1, h2, h3, h4]

/-- The sub-parts of a canonical segment, after a padding `pre` of spaces. -/
theorem Split_canonicalSegment (pre t : Str) (kvs : List (Str × Str))
    (hpre : ';' ∉ pre) (ht : ';' ∉ t) (hkvs : ∀ kv ∈ kvs, cleanParam kv) :
    Split (pre ++ canonicalSegment t kvs) ';' =
      (pre ++ ('<' :: (t ++ ['>']))) :: kvs.map (fun kv => ' ' :: canonicalParam kv) := by
  have := Split_Join ';' [' '] (by decide) (kvs.map canonicalParam) pre
    ("<".toList ++ t ++ ">".toList) hpre (by simp [ht]) (by
      intro y hy
      obtain ⟨kv, hkv, rfl⟩ := List.mem_map.1 hy
      obtain ⟨⟨_, h1, _⟩, ⟨_, h2, _⟩, _⟩ := hkvs kv hkv
      exact not_mem_canonicalParam ';' kv h1 h2 (by decide) (by decide))
  simpa [canonicalSegment, List.map_map, Function.comp] using this

/-- A canonical segment, after a padding of spaces, parses to its URL text and to the
map of its pairs. -/
theorem canonicalSegment_gives (U : URLLib) (pre t : Str) (kvs : List (Str × Str))
    (l : Link U) (hpre : ∀ c ∈ pre, c = ' ') (ht : cleanURL t)
    (hkvs : ∀ kv ∈ kvs, cleanParam kv) (hu : U.Parse t = .ok l.URL)
    (hm : l.Params = ofPairs kvs) :
    segmentGives U (pre ++ canonicalSegment t kvs) l := by
  have hpre2 : ';' ∉ pre := fun h => by have := hpre _ h; revert this; decide
  have hsplit := Split_canonicalSegment pre t kvs hpre2 ht.1.2.1 hkvs
  constructor
  · have href : urlRef (pre ++ canonicalSegment t kvs) = t := by
      unfold urlRef
      rw [hsplit, List.headD_cons]
      have := trim_pad (fun c => [' ', '<', '>'].contains c) (pre ++ ['<']) t ['>']
        (by
          intro c hc
          rcases List.mem_append.1 hc with h | h
          · rw [hpre c h]; decide
          · have : c = '<' := by simpa using h
            rw [this]; decide)
        (by decide) ht.2
      simpa [Trim] using this
    rw [href]
    exact hu
  · unfold paramParts
    rw [hsplit, List.drop_succ_cons, List.drop_zero, parseParams_pieces kvs _ hkvs, hm]
    rfl

/-! ## Maps built from pairs -/

theorem lookup_foldl_set :
    ∀ (kvs : List (Str × Str)) (acc : Params) (k : Str), (kvs.map Prod.fst).Nodup →
      (kvs.foldl (fun m kv => m.set kv.1 kv.2) acc).lookup k =
        (match kvs.find? (fun e => e.1 = k) with
          | some e => some e.2
          | none => acc.lookup k) := by
  intro kvs
  induction kvs with
  | nil => intro acc k _; rfl
  | cons e rest ih =>
    intro acc k hnd
    have hnd2 : (rest.map Prod.fst).Nodup := (List.nodup_cons.1 hnd).2
    have hnot : e.1 ∉ rest.map Prod.fst := (List.nodup_cons.1 hnd).1
    rw [List.foldl_cons, ih _ k hnd2]
    by_cases hk : e.1 = k
    · have hnone : rest.find? (fun x => decide (x.1 = k)) = none := by
        apply List.find?_eq_none.2
        intro x hx hxk
        apply hnot
        rw [hk]
        exact List.mem_map.2 ⟨x, hx, by simpa using hxk⟩
      rw [hnone, List.find?_cons_of_pos _ (by simpa using hk), Params.lookup_set, if_pos hk]
    · rw [List.find?_cons_of_neg _ (by simpa using hk)]
      cases rest.find? (fun x => decide (x.1 = k)) with
      | some x => rfl
      | none => simp only [Params.lookup_set, if_neg hk]

theorem lookup_ofPairs (kvs : List (Str × Str)) (k : Str) (hnd : (kvs.map Prod.fst).Nodup) :
    (ofPairs kvs).lookup k =
      (match kvs.find? (fun e => e.1 = k) with
        | some e => some e.2
        | none => none) := by
  have := lookup_foldl_set kvs Params.empty k hnd
  simpa [ofPairs, Params.lookup, Params.empty] using this

theorem find?_of_mem_nodup :
    ∀ (kvs : List (Str × Str)) (kv : Str × Str), (kvs.map Prod.fst).Nodup → kv ∈ kvs →
      kvs.find? (fun e => e.1 = kv.1) = some kv := by
  intro kvs
  induction kvs with
  | nil => intro kv _ h; simp at h
  | cons e rest ih =>
    intro kv hnd hmem
    have hnd2 : (rest.map Prod.fst).Nodup := (List.nodup_cons.1 hnd).2
    have hnot : e.1 ∉ rest.map Prod.fst := (List.nodup_cons.1 hnd).1
    rcases List.mem_cons.1 hmem with rfl | h2
    · simp
    · have hne : ¬ e.1 = kv.1 := fun he => hnot (he ▸ List.mem_map.2 ⟨kv, h2, rfl⟩)
      rw [List.find?_cons_of_neg _ (by simpa using hne)]
      exact ih kv hnd2 h2

theorem lookup_ofPairs_of_mem (kvs : List (Str × Str)) (kv : Str × Str)
    (hnd : (kvs.map Prod.fst).Nodup) (hmem : kv ∈ kvs) :
    (ofPairs kvs).lookup kv.1 = some kv.2 := by
  rw [lookup_ofPairs kvs kv.1 hnd, find?_of_mem_nodup kvs kv hnd hmem]

theorem mem_keys_ofPairs (kvs : List (Str × Str)) (k : Str) (hnd : (kvs.map Prod.fst).Nodup) :
    k ∈ (ofPairs kvs).keys ↔ k ∈ kvs.map Prod.fst := by
  rw [Params.mem_keys_iff, lookup_ofPairs kvs k hnd]
  constructor
  · rintro ⟨v, hv⟩
    cases hf : kvs.find? (fun e => decide (e.1 = k)) with
    | none => rw [hf] at hv; cases hv
    | some e =>
      have h1 := List.mem_of_find?_eq_some hf
      have h2 := List.find?_some hf
      exact List.mem_map.2 ⟨e, h1, by simpa using h2⟩
  · intro hk
    obtain ⟨e, he, rfl⟩ := List.mem_map.1 hk
    rw [find?_of_mem_nodup kvs e hnd he]
    exact ⟨e.2, rfl⟩

theorem sortStrings_of_sorted (ks : List Str) (h : ks.Sorted (fun a b => strLe a b = true)) :
    sortStrings ks = ks :=
  haveI := strLe_isAntisymm
  List.eq_of_perm_of_sorted (sortStrings_perm ks) (sortStrings_sorted ks) h

/-- The sorted pairs of the map built from pairs with ascending, distinct keys are those
pairs. -/
theorem sortedPairs_ofPairs (kvs : List (Str × Str))
    (hs : (kvs.map Prod.fst).Sorted (fun a b => strLe a b = true))
    (hnd : (kvs.map Prod.fst).Nodup) : sortedPairs (ofPairs kvs) = kvs := by
  have hperm : (ofPairs kvs).keys.Perm (kvs.map Prod.fst) :=
    (List.perm_ext_iff_of_nodup (ofPairs kvs).nodup hnd).2 (fun k => mem_keys_ofPairs kvs k hnd)
  unfold sortedPairs
  rw [sortStrings_congr hperm, sortStrings_of_sorted _ hs, List.map_map]
  conv_rhs => rw [← List.map_id kvs]
  apply List.map_congr_left
  intro kv hkv
  have := lookup_ofPairs_of_mem kvs kv hnd hkv
  simp [Params.get, this]

/-- The map rebuilt from the sorted pairs of a map holds the same value under every
key. -/
theorem lookup_ofPairs_sortedPairs (m : Params) (k : Str) :
    (ofPairs (sortedPairs m)).lookup k = m.lookup k := by
  have hkeys : (sortedPairs m).map Prod.fst = sortStrings m.keys := by
    unfold sortedPairs
    rw [List.map_map]
    conv_rhs => rw [← List.map_id (sortStrings m.keys)]
    exact List.map_congr_left (fun _ _ => rfl)
  have hnd : ((sortedPairs m).map Prod.fst).Nodup := by
    rw [hkeys]
    exact (sortStrings_perm m.keys).nodup_iff.2 m.nodup
  by_cases hk : k ∈ m.keys
  · obtain ⟨v, hv⟩ := (Params.mem_keys_iff m k).1 hk
    have hmem : (k, m.get k) ∈ sortedPairs m :=
      List.mem_map.2 ⟨k, (sortStrings_perm m.keys).mem_iff.2 hk, rfl⟩
    have := lookup_ofPairs_of_mem (sortedPairs m) (k, m.get k) hnd hmem
    rw [this, hv]
    simp [Params.get, hv]
  · have h1 : m.lookup k = none := by
      cases h : m.lookup k with
      | none => rfl
      | some v => exact absurd ((Params.mem_keys_iff m k).2 ⟨v, h⟩) hk
    have h2 : k ∉ (ofPairs (sortedPairs m)).keys := by
      rw [mem_keys_ofPairs _ k hnd, hkeys]
      exact fun h => hk ((sortStrings_perm m.keys).mem_iff.1 h)
    cases h : (ofPairs (sortedPairs m)).lookup k with
    | none => rw [h1]
    | some v => exact absurd ((Params.mem_keys_iff _ k).2 ⟨v, h⟩) h2

/-- The string of a link is the canonical text of its URL string and sorted pairs. -/
theorem Link_String_canonical {U : URLLib} (l : Link U) :
    l.String = canonicalSegment (U.String l.URL) (sortedPairs l.Params) := by
  simp only [Link.String, appendParams_eq, List.singleton_append, canonicalSegment, sortedPairs,
    List.map_map]
  congr 2

theorem Header_String_canonical {U : URLLib} (h : Header U) :
    h.String = canonicalHeader (h.Links.map (fun l => (U.String l.URL, sortedPairs l.Params))) := by
  rw [Header_String_eq_Join, canonicalHeader, List.map_map]
  congr 1
  apply List.map_congr_left
  intro l _
  exact Link_String_canonical l


/-! ## Parsing a canonical header -/

theorem ReplaceAll_of_not_mem (c : Char) (s : Str) (h : c ∉ s) : ReplaceAll s c [] = s := by
  rw [ReplaceAll_nil_eq_filter]
  apply List.filter_eq_self.2
  intro x hx
  have : x ≠ c := fun hxc => h (hxc ▸ hx)
  simpa using this

theorem not_mem_canonicalSegment (c : Char) (sg : Str × List (Str × Str))
    (h1 : c ∉ sg.1) (h2 : ∀ kv ∈ sg.2, c ∉ kv.1 ∧ c ∉ kv.2)
    (hc : c ∉ [';', ' ', '<', '>', '=', '"']) : c ∉ canonicalSegment sg.1 sg.2 := by
  simp only [List.mem_cons, List.mem_singleton, List.not_mem_nil, or_false, not_or] at hc
  obtain ⟨c1, c2, c3, c4, c5, c6⟩ := hc
  intro hmem
  rcases mem_Join c _ _ hmem with h | ⟨x, hx, hcx⟩
  · simp [c1, c2] at h
  · rcases List.mem_cons.1 hx with rfl | hx2
    · simp [c3, c4, h1] at hcx
    · obtain ⟨kv, hkv, rfl⟩ := List.mem_map.1 hx2
      exact not_mem_canonicalParam c kv (h2 kv hkv).1 (h2 kv hkv).2 c5 c6 hcx

theorem not_mem_canonicalSegment_of_clean (c : Char) (sg : Str × List (Str × Str))
    (hclean : cleanSegment sg) (hc : c = ',' ∨ c = '\n') : c ∉ canonicalSegment sg.1 sg.2 := by
  have hplain : ∀ t : Str, plainText t → c ∉ t := by
    intro t ht
    rcases hc with rfl | rfl
    · exact ht.1
    · exact ht.2.2
  apply not_mem_canonicalSegment c sg (hplain _ hclean.1.1)
    (fun kv hkv => ⟨hplain _ (hclean.2 kv hkv).1, hplain _ (hclean.2 kv hkv).2.1⟩)
  rcases hc with rfl | rfl <;> decide

/-- The segments of a canonical header are the canonical texts of its links, each but the
first after one space. -/
theorem segments_canonicalHeader (sg : Str × List (Str × Str))
    (rest : List (Str × List (Str × Str))) (hclean : ∀ x ∈ sg :: rest, cleanSegment x) :
    segments (canonicalHeader (sg :: rest)) =
      canonicalSegment sg.1 sg.2 :: rest.map (fun x => ' ' :: canonicalSegment x.1 x.2) := by
  have hnl : '\n' ∉ canonicalHeader (sg :: rest) := by
    intro hmem
    rcases mem_Join '\n' _ _ hmem with h | ⟨x, hx, hcx⟩
    · revert h; decide
    · obtain ⟨y, hy, rfl⟩ := List.mem_map.1 hx
      exact not_mem_canonicalSegment_of_clean '\n' y (hclean y hy) (Or.inr rfl) hcx
  unfold segments
  rw [ReplaceAll_of_not_mem _ _ hnl]
  have := Split_Join ',' [' '] (by decide)
    (rest.map (fun x => canonicalSegment x.1 x.2)) [] (canonicalSegment sg.1 sg.2) (by simp)
    (not_mem_canonicalSegment_of_clean ',' sg (hclean sg (by simp)) (Or.inl rfl))
    (by
      intro y hy
      obtain ⟨x, hx, rfl⟩ := List.mem_map.1 hy
      exact not_mem_canonicalSegment_of_clean ',' x (hclean x (by simp [hx])) (Or.inl rfl))
  simpa [canonicalHeader, List.map_map, Function.comp] using this

theorem canonical_rest_gives (U : URLLib) (pre : Str) (hpre : ∀ c ∈ pre, c = ' ') :
    ∀ (rest : List (Str × List (Str × Str))) (links : List (Link U)),
      (∀ x ∈ rest, cleanSegment x) →
      List.Forall₂ (fun sg l => U.Parse sg.1 = .ok l.URL ∧ l.Params = ofPairs sg.2) rest links →
      List.Forall₂ (segmentGives U) (rest.map (fun x => pre ++ canonicalSegment x.1 x.2)) links := by
  intro rest
  induction rest with
  | nil =>
    intro links _ hf
    cases hf
    exact List.Forall₂.nil
  | cons sg sgs ih =>
    intro links hclean hf
    cases hf with
    | cons hxl hrest =>
      rename_i l ls
      refine List.Forall₂.cons ?_ (ih ls (fun x hx => hclean x (by simp [hx])) hrest)
      have hc := hclean sg (by simp)
      exact canonicalSegment_gives U pre sg.1 sg.2 l hpre hc.1 hc.2 hxl.1 hxl.2

/-- A non-empty canonical header parses to the links of its segments. -/
theorem canonicalHeader_parses (U : URLLib) (segs : List (Str × List (Str × Str)))
    (links : List (Link U)) (hne : segs ≠ []) (hclean : ∀ x ∈ segs, cleanSegment x)
    (hf : List.Forall₂ (fun sg l => U.Parse sg.1 = .ok l.URL ∧ l.Params = ofPairs sg.2)
      segs links) :
    ParseString U (canonicalHeader segs) = .ok ⟨links⟩ := by
  apply ParseString_of_gives
  cases segs with
  | nil => exact absurd rfl hne
  | cons sg sgs =>
    cases hf with
    | cons hxl hrest =>
    rename_i l ls
    rw [segments_canonicalHeader sg sgs hclean]
    have hc := hclean sg (by simp)
    refine List.Forall₂.cons ?_ ?_
    · have := canonicalSegment_gives U [] sg.1 sg.2 l (by simp) hc.1 hc.2 hxl.1 hxl.2
      simpa using this
    · have := canonical_rest_gives U [' '] (by simp) sgs ls
        (fun x hx => hclean x (by simp [hx])) hrest
      simpa using this

/-! ## What a parse puts into the maps -/

theorem mem_Split (c : Char) :
    ∀ (s p : Str), p ∈ Split s c → c ∉ p ∧ ∀ x ∈ p, x ∈ s := by
  intro s
  induction s with
  | nil =>
    intro p hp
    have : p = [] := by simpa [Split] using hp
    subst this
    simp
  | cons a as ih =>
    intro p hp
    by_cases ha : a = c
    · simp only [Split, ha, if_true, List.mem_cons] at hp
      rcases hp with rfl | hp
      · simp
      · obtain ⟨h1, h2⟩ := ih p hp
        exact ⟨h1, fun x hx => List.mem_cons_of_mem _ (h2 x hx)⟩
    · obtain ⟨q, qs, hq⟩ := Split_cons_form as c
      simp only [Split, ha, if_false, hq, List.mem_cons] at hp
      rcases hp with rfl | hp
      · obtain ⟨h1, h2⟩ := ih q (by rw [hq]; simp)
        constructor
        · intro hmem
          rcases List.mem_cons.1 hmem with h | h
          · exact ha h.symm
          · exact h1 h
        · intro x hx
          rcases List.mem_cons.1 hx with rfl | h
          · simp
          · exact List.mem_cons_of_mem _ (h2 x h)
      · obtain ⟨h1, h2⟩ := ih p (by rw [hq]; simp [hp])
        exact ⟨h1, fun x hx => List.mem_cons_of_mem _ (h2 x hx)⟩

theorem mem_segments (s seg : Str) (h : seg ∈ segments s) :
    ',' ∉ seg ∧ '\n' ∉ seg := by
  obtain ⟨h1, h2⟩ := mem_Split ',' _ seg h
  refine ⟨h1, fun hn => ?_⟩
  have := h2 _ hn
  rw [ReplaceAll_nil_eq_filter] at this
  simpa using (List.mem_filter.1 this).2

theorem mem_paramParts (seg p : Str) (h : p ∈ paramParts seg) :
    ';' ∉ p ∧ ∀ x ∈ p, x ∈ seg :=
  mem_Split ';' seg p (List.mem_of_mem_drop h)

theorem mem_of_mem_paramKey (p : Str) (c : Char) (h : c ∈ paramKey p) : c ∈ p ∧ c ≠ '=' := by
  have h1 := mem_of_mem_trim _ _ c h
  have h2 := List.mem_takeWhile_imp h1
  refine ⟨?_, by simpa using h2⟩
  have h3 := (List.takeWhile_sublist _).subset h1
  exact mem_of_mem_trim _ _ c h3

theorem mem_of_mem_paramValue (p : Str) (c : Char) (h : c ∈ paramValue p) : c ∈ p := by
  have h1 := mem_of_mem_trim _ _ c h
  have h2 := (List.dropWhile_sublist _).subset (List.mem_of_mem_drop h1)
  exact mem_of_mem_trim _ _ c h2

theorem entries_foldl_set :
    ∀ (ps : List Str) (acc : Params) (e : Str × Str),
      e ∈ (ps.foldl (fun m p => m.set (paramKey p) (paramValue p)) acc).entries →
      e ∈ acc.entries ∨ ∃ p ∈ ps, e = (paramKey p, paramValue p) := by
  intro ps
  induction ps with
  | nil => intro acc e h; exact Or.inl h
  | cons q qs ih =>
    intro acc e h
    rcases ih _ e h with h1 | ⟨p, hp, he⟩
    · simp only [Params.set, List.mem_cons, List.mem_filter] at h1
      rcases h1 with rfl | ⟨h2, _⟩
      · exact Or.inr ⟨q, by simp, rfl⟩
      · exact Or.inl h2
    · exact Or.inr ⟨p, by simp [hp], he⟩

theorem Params.mem_entries_of_mem_keys (m : Params) (k : Str) (hk : k ∈ m.keys) :
    (k, m.get k) ∈ m.entries := by
  obtain ⟨v, hv⟩ := (Params.mem_keys_iff m k).1 hk
  have hget : m.get k = v := Params.get_of_lookup hv
  unfold Params.lookup at hv
  cases hf : m.entries.find? (fun e => decide (e.1 = k)) with
  | none => rw [hf] at hv; cases hv
  | some e =>
    rw [hf] at hv
    have h1 := List.mem_of_find?_eq_some hf
    have h2 : e.1 = k := by simpa using List.find?_some hf
    have h3 : e.2 = v := by simpa using hv
    rw [hget, ← h2, ← h3]
    exact h1

/-- The pairs of a link that a parse produced fit the parameter syntax, but for white
space at the start of a key. -/
theorem parsed_entries_clean (U : URLLib) (s seg : Str) (l : Link U) (hseg : seg ∈ segments s)
    (hg : segmentGives U seg l) (e : Str × Str) (he : e ∈ l.Params.entries) :
    plainText e.1 ∧ plainText e.2 ∧ '=' ∉ e.1 ∧
      untrimmed (fun c => ['"'].contains c) e.1 ∧ untrimmed (fun c => ['"'].contains c) e.2 := by
  have hm := hg.2
  rw [parseParams_eq_foldl _ _ (parseParams_some_imp _ _ _ hm)] at hm
  rw [← Option.some.inj hm] at he
  rcases entries_foldl_set _ _ e he with h | ⟨p, hp, rfl⟩
  · simp [Params.empty] at h
  · obtain ⟨hsemi, hsub⟩ := mem_paramParts seg p hp
    obtain ⟨hcomma, hnl⟩ := mem_segments s seg hseg
    have hplain : ∀ t : Str, (∀ c ∈ t, c ∈ p) → plainText t := by
      intro t ht
      exact ⟨fun h => hcomma (hsub _ (ht _ h)), fun h => hsemi (ht _ h),
        fun h => hnl (hsub _ (ht _ h))⟩
    refine ⟨hplain _ (fun c hc => (mem_of_mem_paramKey p c hc).1),
      hplain _ (fun c hc => mem_of_mem_paramValue p c hc),
      fun h => (mem_of_mem_paramKey p _ h).2 rfl, trim_untrimmed _ _, trim_untrimmed _ _⟩

/-! ## The first character of a formatted header -/

theorem Join_head? (sep x : Str) (rest : List Str) (hx : x ≠ []) :
    (Join (x :: rest) sep).head? = x.head? := by
  cases x with
  | nil => exact absurd rfl hx
  | cons c cs =>
    cases rest with
    | nil => rfl
    | cons y r => rfl

theorem Link_String_head? {U : URLLib} (l : Link U) : l.String.head? = some '<' := by
  rw [Link_String_canonical, canonicalSegment, Join_head? _ _ _ (by simp)]
  rfl

theorem Link_String_ne_nil {U : URLLib} (l : Link U) : l.String ≠ [] := by
  intro h
  have := Link_String_head? l
  rw [h] at this
  cases this

/-- The string of a parsed header begins with an opening angle bracket. -/
theorem parsed_String_head? (U : URLLib) (s : Str) (h : Header U)
    (hok : ParseString U s = .ok h) : h.String.head? = some '<' := by
  have hlen := parseSegments_ok_length U (segments s) [] h hok
  have hpos : 0 < (segments s).length := by rw [segments_length]; omega
  cases hl : h.Links with
  | nil => rw [hl] at hlen; simp at hlen; omega
  | cons l ls =>
    rw [Header_String_eq_Join, hl, List.map_cons, Join_head? _ _ _ (Link_String_ne_nil l)]
    exact Link_String_head? l

/-! ## Round trips -/

theorem exists_links_of_parses (U : URLLib) :
    ∀ segs : List (Str × List (Str × Str)),
      (∀ sg ∈ segs, ∃ u : U.URL, U.Parse sg.1 = .ok u ∧ U.String u = sg.1) →
      ∃ links : List (Link U), List.Forall₂
        (fun sg l => (U.Parse sg.1 = .ok l.URL ∧ l.Params = ofPairs sg.2) ∧ U.String l.URL = sg.1)
        segs links := by
  intro segs
  induction segs with
  | nil => intro _; exact ⟨[], List.Forall₂.nil⟩
  | cons sg rest ih =>
    intro h
    obtain ⟨u, hu, hs⟩ := h sg (by simp)
    obtain ⟨links, hl⟩ := ih (fun x hx => h x (by simp [hx]))
    exact ⟨⟨u, ofPairs sg.2⟩ :: links, List.Forall₂.cons ⟨⟨hu, rfl⟩, hs⟩ hl⟩

theorem map_eq_of_forall₂ {α β : Type} (R : α → β → Prop) (f : β → α) :
    ∀ (xs : List α) (ys : List β), List.Forall₂ R xs ys →
      (∀ x ∈ xs, ∀ y, R x y → f y = x) → ys.map f = xs := by
  intro xs
  induction xs with
  | nil => intro ys h _; cases h; rfl
  | cons x rest ih =>
    intro ys h hf
    cases h with
    | cons hxy hrest =>
      rename_i y ys2
      rw [List.map_cons, hf x (by simp) y hxy, ih ys2 hrest (fun z hz => hf z (by simp [hz]))]

/-- The header `spacedTestHeader`, the input of the tests, is a space followed by a
header in canonical form: it has sorted keys, quoted values, no newline and no comma in
a value.  It parses, and the string of the result is the canonical
header without the leading space, so it differs from the input.  For every URL library a
successful parse of it formats to a string that begins with `<`, not with the space. -/
theorem leading_space_not_reproduced :
    '\n' ∉ spacedTestHeader ∧
    spacedTestHeader = ' ' :: canonicalHeader testSegments ∧
    (∀ sg ∈ testSegments, cleanSegment sg ∧ ascendingKeys sg.2) ∧
    (∃ h : Header schemeURL, ParseString schemeURL spacedTestHeader = .ok h ∧
      h.String = testHeader ∧ h.String ≠ spacedTestHeader) ∧
    (∀ (U : URLLib) (h : Header U), ParseString U spacedTestHeader = .ok h →
      h.String ≠ spacedTestHeader) := by
  refine ⟨by decide, by decide, by decide, ⟨⟨[⟨("http".toList, "//red.com".toList), otherThenRel⟩,
    ⟨("http".toList, "//purple.com".toList), relOnly "last".toList⟩,
    ⟨("http".toList, "//green.com".toList), relOnly "next".toList⟩,
    ⟨("http".toList, "//yellow.com".toList), relOnly "prev".toList⟩,
    ⟨("http".toList, "//cyan.com".toList), relOnly "home".toList⟩]⟩, rfl, by decide, by decide⟩, ?_⟩
  intro U h hok heq
  have := parsed_String_head? U _ h hok
  rw [heq] at this
  revert this
  decide

/-- C12 (amended): a header in canonical form, that is one or more segments joined by
", ", each a URL text in angle brackets followed by `; key="value"` parts with strictly
ascending keys, where URL texts, keys and values are clean and every URL text is parsed
by the URL library to a URL that formats back to it, parses to a header whose string is
the input. -/
theorem canonical_roundtrip (U : URLLib) (segs : List (Str × List (Str × Str)))
    (hne : segs ≠ []) (hclean : ∀ sg ∈ segs, cleanSegment sg ∧ ascendingKeys sg.2)
    (hU : ∀ sg ∈ segs, ∃ u : U.URL, U.Parse sg.1 = .ok u ∧ U.String u = sg.1) :
    ∃ h : Header U, ParseString U (canonicalHeader segs) = .ok h ∧
      h.String = canonicalHeader segs := by
  obtain ⟨links, hl⟩ := exists_links_of_parses U segs hU
  refine ⟨⟨links⟩, canonicalHeader_parses U segs links hne (fun x hx => (hclean x hx).1)
    (hl.imp (fun _ _ h => h.1)), ?_⟩
  rw [Header_String_canonical]
  congr 1
  apply map_eq_of_forall₂ _ _ segs links hl
  intro sg hsg l hR
  obtain ⟨⟨_, hm⟩, hs⟩ := hR
  have hasc := (hclean sg hsg).2
  rw [hs, hm, sortedPairs_ofPairs sg.2 hasc.1 hasc.2]

/-- The canonical header of the tests is in canonical form, `schemeURL` parses its URL
texts and formats them back, and its parse formats to itself. -/
theorem canonical_roundtrip_witness :
    canonicalHeader testSegments = testHeader ∧
    (∀ sg ∈ testSegments, cleanSegment sg ∧ ascendingKeys sg.2) ∧
    ∃ h : Header schemeURL, ParseString schemeURL (canonicalHeader testSegments) = .ok h ∧
      h.String = canonicalHeader testSegments :=
  have hU : ∀ sg ∈ testSegments, ∃ u : schemeURL.URL,
      schemeURL.Parse sg.1 = .ok u ∧ schemeURL.String u = sg.1 := by
    intro sg hsg
    simp only [testSegments, List.mem_cons, List.mem_singleton, List.not_mem_nil, or_false] at hsg
    rcases hsg with rfl | rfl | rfl | rfl | rfl
    · exact ⟨("http".toList, "//red.com".toList), rfl, by decide⟩
    · exact ⟨("http".toList, "//purple.com".toList), rfl, by decide⟩
    · exact ⟨("http".toList, "//green.com".toList), rfl, by decide⟩
    · exact ⟨("http".toList, "//yellow.com".toList), rfl, by decide⟩
    · exact ⟨("http".toList, "//cyan.com".toList), rfl, by decide⟩
  ⟨by decide, by decide, canonical_roundtrip schemeURL testSegments (by decide) (by decide) hU⟩

/-- The header `<http://a.com>; " a"=x` parses to a link with the key ` a` (a space, then
`a`); the string of the result is `<http://a.com>;  a="x"`, which parses to a link with
the key `a`: the parameter maps differ.  This holds for `schemeURL` and for every URL
library that parses `http://a.com` to a URL it formats back to that text.  With a URL
library whose formatted URL holds a comma, the number of links changes as well. -/
theorem quoted_key_not_reparsed :
    (∃ h h2 : Header schemeURL, ParseString schemeURL quotedKey = .ok h ∧
      h.String = quotedKeyFormatted ∧ ParseString schemeURL h.String = .ok h2 ∧
      h.Links.map (fun l => l.Params.lookup " a".toList) = [some "x".toList] ∧
      h2.Links.map (fun l => l.Params.lookup " a".toList) = [none]) ∧
    (∀ (U : URLLib) (u : U.URL), U.Parse "http://a.com".toList = .ok u →
      U.String u = "http://a.com".toList →
      ∃ h h2 : Header U, ParseString U quotedKey = .ok h ∧
        h.String = quotedKeyFormatted ∧ ParseString U h.String = .ok h2 ∧
        h.Links.map (fun l => l.Params.lookup " a".toList) = [some "x".toList] ∧
        h2.Links.map (fun l => l.Params.lookup " a".toList) = [none]) ∧
    (∃ h h2 : Header commaURL, ParseString commaURL "<a>".toList = .ok h ∧
      ParseString commaURL h.String = .ok h2 ∧ h.Links.length = 1 ∧ h2.Links.length = 2) := by
  have key : ∀ (U : URLLib) (u : U.URL), U.Parse "http://a.com".toList = .ok u →
      U.String u = "http://a.com".toList →
      ∃ h h2 : Header U, ParseString U quotedKey = .ok h ∧
        h.String = quotedKeyFormatted ∧ ParseString U h.String = .ok h2 ∧
        h.Links.map (fun l => l.Params.lookup " a".toList) = [some "x".toList] ∧
        h2.Links.map (fun l => l.Params.lookup " a".toList) = [none] := by
    intro U u hp hs
    have h1 : ParseString U quotedKey =
        .ok ⟨[⟨u, Params.empty.set " a".toList "x".toList⟩]⟩ :=
      ParseString_one U quotedKey quotedKey "http://a.com".toList u _
        (by decide) (by decide) hp (by decide)
    have hstr : (Header.mk [Link.mk u (Params.empty.set " a".toList "x".toList)]).String =
        quotedKeyFormatted := by
      rw [Header_String_eq_Join]
      simp only [List.map, Link_String_eq, hs]
      decide
    have h2 : ParseString U quotedKeyFormatted =
        .ok ⟨[⟨u, Params.empty.set "a".toList "x".toList⟩]⟩ :=
      ParseString_one U quotedKeyFormatted quotedKeyFormatted "http://a.com".toList u _
        (by decide) (by decide) hp (by decide)
    have l1 : (Params.empty.set " a".toList "x".toList).lookup " a".toList =
        some "x".toList := by decide
    have l2 : (Params.empty.set "a".toList "x".toList).lookup " a".toList = none := by decide
    exact ⟨_, _, h1, hstr, by rw [hstr]; exact h2, by simp only [List.map, l1],
      by simp only [List.map, l2]⟩
  exact ⟨key schemeURL ("http".toList, "//a.com".toList) rfl (by decide), key,
    ⟨[⟨"a".toList, Params.empty⟩]⟩, ⟨[⟨[], Params.empty⟩, ⟨[], Params.empty⟩]⟩,
    rfl, rfl, rfl, rfl⟩

/-- C13 (amended): when `ParseString` succeeds on `s` with the header `h`, the URL
library formats the URL of every link of `h` to a clean text that it parses back to the
same URL, and no parameter key of `h` begins with white space, then `ParseString`
succeeds on the string of `h` with a header of the same number of links, the same URLs
in order and, under every key, the same values in the parameter maps. -/
theorem reparse_same_structure (U : URLLib) (s : Str) (h : Header U)
    (hok : ParseString U s = .ok h)
    (hurl : ∀ l ∈ h.Links, cleanURL (U.String l.URL) ∧ U.Parse (U.String l.URL) = .ok l.URL)
    (hkey : ∀ l ∈ h.Links, ∀ k ∈ l.Params.keys, ∀ c ∈ k.head?, IsSpace c = false) :
    ∃ h2 : Header U, ParseString U h.String = .ok h2 ∧
      h2.Links.length = h.Links.length ∧
      List.Forall₂ (fun l l2 => l2.URL = l.URL ∧ ∀ k, l2.Params.lookup k = l.Params.lookup k)
        h.Links h2.Links := by
  have hg := ParseString_ok_gives U s h hok
  have hne : h.Links ≠ [] := by
    intro hnil
    have hlen := hg.length_eq
    rw [hnil, segments_length] at hlen
    simp at hlen
  have hclean : ∀ l ∈ h.Links, cleanSegment (U.String l.URL, sortedPairs l.Params) := by
    intro l hl
    refine ⟨(hurl l hl).1, ?_⟩
    intro kv hkv
    obtain ⟨k, hk, rfl⟩ := List.mem_map.1 hkv
    have hk2 : k ∈ l.Params.keys := (sortStrings_perm _).mem_iff.1 hk
    obtain ⟨i, hi⟩ := List.getElem?_of_mem hl
    have hlt : i < (segments s).length := by
      rw [hg.length_eq]
      exact (List.getElem?_eq_some_iff.1 hi).1
    have hseg : (segments s)[i]? = some ((segments s)[i]) := List.getElem?_eq_getElem hlt
    have hgl := forall₂_getElem? hg i _ l hseg hi
    obtain ⟨a1, a2, a3, a4, a5⟩ := parsed_entries_clean U s _ l (List.getElem_mem hlt) hgl
      (k, l.Params.get k) (Params.mem_entries_of_mem_keys _ k hk2)
    exact ⟨a1, a2, a3, a4, a5, hkey l hl k hk2⟩
  refine ⟨⟨h.Links.map (fun l => ⟨l.URL, ofPairs (sortedPairs l.Params)⟩)⟩, ?_, by simp, ?_⟩
  · rw [Header_String_canonical]
    apply canonicalHeader_parses U _ _ (by simpa using hne)
    · intro x hx
      obtain ⟨l, hl, rfl⟩ := List.mem_map.1 hx
      exact hclean l hl
    · rw [List.forall₂_map_left_iff, List.forall₂_map_right_iff, List.forall₂_same]
      intro l hl
      exact ⟨(hurl l hl).2, rfl⟩
  · rw [List.forall₂_map_right_iff, List.forall₂_same]
    intro l _
    exact ⟨rfl, fun k => lookup_ofPairs_sortedPairs l.Params k⟩

/-- The header `mixedHeader` parses with `schemeURL` to two links; the string of the
result has quoted values, sorted keys and a space after the comma, and parses to a header
with the same URLs and the same values under every key. -/
theorem reparse_same_structure_witness :
    ParseString schemeURL mixedHeader = .ok mixedParsed ∧
    mixedParsed.String = "<http://a.com>; a=\"1\"; rel=\"next\", <http://b.com>".toList ∧
    ∃ h2 : Header schemeURL, ParseString schemeURL mixedParsed.String = .ok h2 ∧
      h2.Links.length = mixedParsed.Links.length ∧
      List.Forall₂ (fun l l2 => l2.URL = l.URL ∧ ∀ k, l2.Params.lookup k = l.Params.lookup k)
        mixedParsed.Links h2.Links :=
  have hurl : ∀ l ∈ mixedParsed.Links,
      cleanURL (schemeURL.String l.URL) ∧ schemeURL.Parse (schemeURL.String l.URL) = .ok l.URL := by
    intro l hl
    simp only [mixedParsed, List.mem_cons, List.mem_singleton, List.not_mem_nil, or_false] at hl
    rcases hl with rfl | rfl
    · exact ⟨by decide, rfl⟩
    · exact ⟨by decide, rfl⟩
  ⟨rfl, by decide,
    reparse_same_structure schemeURL mixedHeader mixedParsed rfl hurl (by decide)⟩

end LinkHeader
